import Mathlib

/-!
# Four dense matrix-multiplication kernels (`matrix.cpp`)

A shallow embedding of `matrix.cpp`: seven global `int **` buffers, the routine
`initialize_matrices`, the four loop nests of `main` (naive, transposed, tiled, flat tiled)
and `verify_matrix_multiplication`.

Modelling conventions.

* `int` values are mathematical integers kept in `[-2^31, 2^31)`; every arithmetic result is
  reduced by `wrap32` (two's complement wraparound).
* A buffer is a `Matrix`: the number of row pointers, the length of every row, and the contents.
  Reading or writing outside `[0,rows) x [0,cols)` is the fault `Fault.outOfBounds`.
* The dimensions `N`, `M`, `P` and `TILE_SIZE` are parameters (the source fixes them by
  `#define` to 2048, 2048, 2048 and 8).  Loop counters are natural numbers, which is exact as
  long as the counters stay below `2^31`, as they do for dimensions that can be allocated.
* `delete_matrix_buffers` is modelled by the row pointers it reads; the contents of released
  memory are never looked at again.
* `for` loops test their condition before every iteration, as in the source.  The model
  recurses on a fuel argument; every loop is started with enough fuel for a positive step, and
  a loop that is still running when the fuel is gone is reported as `Fault.diverged`.
-/

namespace MatMul

/-- What can go wrong while the program runs. -/
inductive Fault where
  | outOfBounds
  | divByZero
  | assertFailed (i k : Nat)
  | diverged
  deriving DecidableEq, Repr

/-- Reduction of a mathematical integer to the `int` with the same residue modulo `2^32`. -/
def wrap32 (x : Int) : Int := (x + 2147483648) % 4294967296 - 2147483648

/-- The values an `int` can hold. -/
def InRange (x : Int) : Prop := -2147483648 ≤ x ∧ x < 2147483648

instance (x : Int) : Decidable (InRange x) := by unfold InRange; infer_instance

/-- One `int **` buffer: `rows` row pointers, each to `cols` ints. -/
structure Matrix where
  rows : Nat
  cols : Nat
  data : Nat → Nat → Int

/-- The seven global buffers of the source. -/
inductive Buf where
  | A | B | Bt | C1 | C2 | C3 | C4
  deriving DecidableEq, Repr

/-- The program state: the contents of the seven global buffers. -/
abbrev State := Buf → Matrix

/-- Read `b[i][j]`. -/
def load (s : State) (b : Buf) (i j : Nat) : Except Fault Int :=
  if i < (s b).rows ∧ j < (s b).cols then .ok ((s b).data i j) else .error .outOfBounds

/-- The matrix `m` with entry `(i, j)` replaced by `v`. -/
def Matrix.set (m : Matrix) (i j : Nat) (v : Int) : Matrix :=
  { m with data := fun r c => if r = i ∧ c = j then v else m.data r c }

/-- Write `b[i][j] = v`. -/
def store (s : State) (b : Buf) (i j : Nat) (v : Int) : Except Fault State :=
  if i < (s b).rows ∧ j < (s b).cols then
    .ok (fun x => if x = b then (s b).set i j v else s x)
  else .error .outOfBounds

/-- The loop `for (int i = <start>; i < hi; i += step) body(i)`, started at counter `i` with
state `s`: the condition is tested before each iteration; `fuel` bounds the number of
iterations. -/
def forLoop {σ : Type} (hi step : Nat) (body : Nat → σ → Except Fault σ) :
    Nat → Nat → σ → Except Fault σ
  | 0, i, s => if i < hi then .error .diverged else .ok s
  | fuel + 1, i, s =>
    if i < hi then
      match body i s with
      | .ok s1 => forLoop hi step body fuel (i + step) s1
      | .error e => .error e
    else .ok s

/-- The loop `for (int i = lo; i < hi; ++i) body(i)`. -/
def forUp {σ : Type} (lo hi : Nat) (body : Nat → σ → Except Fault σ) (s : σ) : Except Fault σ :=
  forLoop hi 1 body (hi - lo) lo s

/-- The loop `for (int i0 = 0; i0 < hi; i0 += step) body(i0)`. -/
def forStep {σ : Type} (hi step : Nat) (body : Nat → σ → Except Fault σ) (s : σ) :
    Except Fault σ :=
  forLoop hi step body hi 0 s

/-- The statement `tgt[a][b] += x[xi][xj] * y[yi][yj];` in `int` arithmetic. -/
def mulAcc (tgt : Buf) (a b : Nat) (x : Buf) (xi xj : Nat) (y : Buf) (yi yj : Nat)
    (s : State) : Except Fault State :=
  match load s tgt a b, load s x xi xj, load s y yi yj with
  | .ok c, .ok u, .ok v => store s tgt a b (wrap32 (c + wrap32 (u * v)))
  | _, _, _ => .error .outOfBounds

/-- Approach 1 of `main`: `C1[i][k] += A[i][j] * B[j][k]` for `i`, then `k`, then `j`. -/
def naiveKernel (N M P : Nat) (s : State) : Except Fault State :=
  forUp 0 N (fun i =>
    forUp 0 P (fun k =>
      forUp 0 M (fun j => mulAcc .C1 i k .A i j .B j k))) s

/-- Approach 2 of `main`: `C2[i][k] += A[i][j] * Bt[k][j]` for `i`, then `k`, then `j`. -/
def transposedKernel (N M P : Nat) (s : State) : Except Fault State :=
  forUp 0 N (fun i =>
    forUp 0 P (fun k =>
      forUp 0 M (fun j => mulAcc .C2 i k .A i j .Bt k j))) s

/-- The loop nest of approach 3 of `main` around an arbitrary innermost statement `body`:
block origins `i0 < N`, `j0 < M`, `k0 < P` in steps of `T`, then `i1`, `j1`, `k1` inside
the tile. -/
def tiledNest {σ : Type} (N M P T : Nat) (body : Nat → Nat → Nat → σ → Except Fault σ)
    (s : σ) : Except Fault σ :=
  forStep N T (fun i0 =>
    forStep M T (fun j0 =>
      forStep P T (fun k0 =>
        forUp i0 (i0 + T) (fun i1 =>
          forUp j0 (j0 + T) (fun j1 =>
            forUp k0 (k0 + T) (fun k1 => body i1 j1 k1)))))) s

/-- The loop nest of approach 4 of `main` around an arbitrary innermost statement `body`:
block origins `i0 < N`, `j0 < M` in steps of `T`, then `i1`, `j1` inside the tile and `k1`
over `[0, M)`. -/
def flatTiledNest {σ : Type} (N M T : Nat) (body : Nat → Nat → Nat → σ → Except Fault σ)
    (s : σ) : Except Fault σ :=
  forStep N T (fun i0 =>
    forStep M T (fun j0 =>
      forUp i0 (i0 + T) (fun i1 =>
        forUp j0 (j0 + T) (fun j1 =>
          forUp 0 M (fun k1 => body i1 j1 k1))))) s

/-- Approach 3 of `main`: the tiled nest around `C3[i1][j1] += A[i1][k1] * Bt[j1][k1]`. -/
def tiledKernel (N M P T : Nat) (s : State) : Except Fault State :=
  tiledNest N M P T (fun i1 j1 k1 => mulAcc .C3 i1 j1 .A i1 k1 .Bt j1 k1) s

/-- Approach 4 of `main`: the flat tiled nest around
`C4[i1][j1] += A[i1][k1] * Bt[j1][k1]`. -/
def flatTiledKernel (N M T : Nat) (s : State) : Except Fault State :=
  flatTiledNest N M T (fun i1 j1 k1 => mulAcc .C4 i1 j1 .A i1 k1 .Bt j1 k1) s

/-- The index triples `(i1, j1, k1)` at which the tiled nest executes its innermost
statement, in execution order. -/
def tiledVisits (N M P T : Nat) : Except Fault (List (Nat × Nat × Nat)) :=
  tiledNest N M P T (fun i1 j1 k1 l => .ok (l ++ [(i1, j1, k1)])) []

/-- The index triples `(i1, j1, k1)` at which the flat tiled nest executes its innermost
statement, in execution order. -/
def flatTiledVisits (N M T : Nat) : Except Fault (List (Nat × Nat × Nat)) :=
  flatTiledNest N M T (fun i1 j1 k1 l => .ok (l ++ [(i1, j1, k1)])) []

/-- The expression `rand() % (X * Y) + 1` for the rand() result `r`, with `X * Y` computed in
`int`; `%` is C's truncating remainder and a zero divisor is a fault. -/
def randomEntry (X Y : Nat) (r : Int) : Except Fault Int :=
  if wrap32 ((X : Int) * (Y : Int)) = 0 then .error .divByZero
  else .ok (wrap32 (Int.tmod r (wrap32 ((X : Int) * (Y : Int))) + 1))

/-- Sequencing of two steps: run `k` on the result of `r`, or stop with the fault of `r`. -/
def andThen {ε α β : Type} (r : Except ε α) (k : α → Except ε β) : Except ε β :=
  match r with
  | .ok a => k a
  | .error e => .error e

/-- Body of the first loop nest of `initialize_matrices`: `A[i][j] = rand() % (N * M) + 1`.
The second component of the loop state counts the calls of `rand()` made so far. -/
def initA (N M : Nat) (rand : Nat → Int) (i j : Nat) (sc : State × Nat) :
    Except Fault (State × Nat) :=
  andThen (randomEntry N M (rand sc.2)) fun v =>
  andThen (store sc.1 .A i j v) fun s1 =>
  .ok (s1, sc.2 + 1)

/-- Body of the second loop nest of `initialize_matrices`:
`B[j][k] = rand() % (M * P) + 1; Bt[k][j] = B[j][k];`. -/
def initB (M P : Nat) (rand : Nat → Int) (j k : Nat) (sc : State × Nat) :
    Except Fault (State × Nat) :=
  andThen (randomEntry M P (rand sc.2)) fun v =>
  andThen (store sc.1 .B j k v) fun s1 =>
  andThen (load s1 .B j k) fun w =>
  andThen (store s1 .Bt k j w) fun s2 =>
  .ok (s2, sc.2 + 1)

/-- Body of the third loop nest of `initialize_matrices`:
`C1[i][k] = 0; C2[i][k] = 0; C3[i][k] = 0; C4[i][k] = 0;`. -/
def initC (i k : Nat) (s : State) : Except Fault State :=
  andThen (store s .C1 i k 0) fun s1 =>
  andThen (store s1 .C2 i k 0) fun s2 =>
  andThen (store s2 .C3 i k 0) fun s3 =>
  store s3 .C4 i k 0

/-- The routine `initialize_matrices`; `rand n` is the result of the `n`-th call of `rand()`
(counted from 0). -/
def initialize_matrices (N M P : Nat) (rand : Nat → Int) (s : State) : Except Fault State :=
  andThen (forUp 0 N (fun i => forUp 0 M (fun j => initA N M rand i j)) (s, 0)) fun sa =>
  andThen (forUp 0 M (fun j => forUp 0 P (fun k => initB M P rand j k)) sa) fun sb =>
  forUp 0 N (fun i => forUp 0 P (fun k => initC i k)) sb.1

/-- The routine `allocate_matrix_buffers`: `A` is `N x M`, `B` is `M x P`, `Bt` is `P x M` and
`C1`..`C4` are `N x P`; `junk` is the indeterminate content of the fresh memory. -/
def allocate_matrix_buffers (N M P : Nat) (junk : Buf → Nat → Nat → Int) : State
  | .A => ⟨N, M, junk .A⟩
  | .B => ⟨M, P, junk .B⟩
  | .Bt => ⟨P, M, junk .Bt⟩
  | .C1 => ⟨N, P, junk .C1⟩
  | .C2 => ⟨N, P, junk .C2⟩
  | .C3 => ⟨N, P, junk .C3⟩
  | .C4 => ⟨N, P, junk .C4⟩

/-- Body of the loop nest of `verify_matrix_multiplication`: the three asserts at `(i, k)`. -/
def verifyAt (i k : Nat) (s : State) : Except Fault State :=
  match load s .C1 i k, load s .C2 i k, load s .C3 i k, load s .C4 i k with
  | .ok c1, .ok c2, .ok c3, .ok c4 =>
    if c1 = c2 ∧ c2 = c3 ∧ c3 = c4 then .ok s else .error (.assertFailed i k)
  | _, _, _, _ => .error .outOfBounds

/-- The routine `verify_matrix_multiplication`. -/
def verify_matrix_multiplication (N P : Nat) (s : State) : Except Fault State :=
  forUp 0 N (fun i => forUp 0 P (fun k => verifyAt i k)) s

/-- Tag a fault with the stage of `main` in which it arose. -/
def atStage {α : Type} (stage : Nat) : Except Fault α → Except (Nat × Fault) α
  | .ok a => .ok a
  | .error e => .error (stage, e)

/-- The four kernel loop nests of `main`, in order. -/
def kernels (N M P T : Nat) (s : State) : Except (Nat × Fault) State :=
  andThen (atStage 1 (naiveKernel N M P s)) fun s1 =>
  andThen (atStage 2 (transposedKernel N M P s1)) fun s2 =>
  andThen (atStage 3 (tiledKernel N M P T s2)) fun s3 =>
  atStage 4 (flatTiledKernel N M T s3)

/-- The statement `delete [] b[i];`: the row pointer `b[i]` is read, which is a fault when `i`
is not a row of `b`. What released memory holds is not modelled, so the state is returned as
it is. -/
def deleteRow (b : Buf) (i : Nat) (s : State) : Except Fault State :=
  if i < (s b).rows then .ok s else .error .outOfBounds

/-- The routine `delete_matrix_buffers` with its loop bounds as written: `M` for the rows of
`A` and of `Bt`, `P` for the rows of `B` and of `C1`..`C4`. -/
def delete_matrix_buffers (M P : Nat) (s : State) : Except Fault State :=
  andThen (forUp 0 M (fun i => deleteRow .A i) s) fun s1 =>
  andThen (forUp 0 P (fun i => deleteRow .B i) s1) fun s2 =>
  andThen (forUp 0 M (fun i => deleteRow .Bt i) s2) fun s3 =>
  andThen (forUp 0 P (fun i => deleteRow .C1 i) s3) fun s4 =>
  andThen (forUp 0 P (fun i => deleteRow .C2 i) s4) fun s5 =>
  andThen (forUp 0 P (fun i => deleteRow .C3 i) s5) fun s6 =>
  forUp 0 P (fun i => deleteRow .C4 i) s6

/-- The function `main` (timing and printing left out): stage 0 is start-up (allocation and
initialisation), stages 1 to 4 are the kernels, stage 5 is verification and stage 6 is the
release of the buffers. A fault is reported with the stage it arose in. -/
def main (N M P T : Nat) (junk : Buf → Nat → Nat → Int) (rand : Nat → Int) :
    Except (Nat × Fault) State :=
  andThen (atStage 0 (initialize_matrices N M P rand (allocate_matrix_buffers N M P junk)))
    fun s0 =>
  andThen (kernels N M P T s0) fun s4 =>
  andThen (atStage 5 (verify_matrix_multiplication N P s4)) fun s5 =>
  atStage 6 (delete_matrix_buffers M P s5)

/-- The reference definition of the product: entry `(i, k)` of `A x B` with inner dimension
`M`, reduced to an `int`. -/
def matProd (M : Nat) (A B : Nat → Nat → Int) (i k : Nat) : Int :=
  wrap32 (∑ j in Finset.range M, A i j * B j k)

/-! ## Predicates and auxiliary definitions used in the statements -/

/-- State `s1` differs from `s` at most in the contents of buffer `tgt`. -/
def SameBut (tgt : Buf) (s s1 : State) : Prop :=
  (∀ b, b ≠ tgt → s1 b = s b) ∧ (s1 tgt).rows = (s tgt).rows ∧ (s1 tgt).cols = (s tgt).cols

/-- State `s1` is `s` with `d a b` added to every entry `(a, b)` of buffer `tgt`, in `int`
arithmetic: the entries stay `int`s and agree modulo `2^32`. -/
def Accum (tgt : Buf) (d : Nat → Nat → Int) (s s1 : State) : Prop :=
  SameBut tgt s s1 ∧
  ∀ a b, (InRange ((s tgt).data a b) → InRange ((s1 tgt).data a b)) ∧
    (s1 tgt).data a b ≡ (s tgt).data a b + d a b [ZMOD 4294967296]

/-- From every state that differs from `s0` only in buffer `tgt`, the program `prog` returns
and adds `d` to that buffer. -/
def Adds (tgt : Buf) (s0 : State) (prog : State → Except Fault State) (d : Nat → Nat → Int) :
    Prop :=
  ∀ s1, SameBut tgt s0 s1 → ∃ s2, prog s1 = .ok s2 ∧ Accum tgt d s1 s2

/-- The buffers of `s` have the sizes `allocate_matrix_buffers` gives them. -/
def Allocated (N M P : Nat) (s : State) : Prop :=
  ∀ b, (s b).rows = (allocate_matrix_buffers N M P (fun _ _ _ => 0) b).rows ∧
    (s b).cols = (allocate_matrix_buffers N M P (fun _ _ _ => 0) b).cols

/-- The exact (unreduced) inner product of row `a` of `X` with column `b` of `Y`. -/
def dot (M : Nat) (X Y : Nat → Nat → Int) (a b : Nat) : Int :=
  ∑ j in Finset.range M, X a j * Y j b

/-- The exact inner product of row `a` of `X` with row `b` of `Y`. -/
def dotRows (M : Nat) (X Y : Nat → Nat → Int) (a b : Nat) : Int :=
  ∑ j in Finset.range M, X a j * Y b j

/-- The transpose relation between `Bt` and `B`: `Bt[k][j] == B[j][k]`. -/
def Transposed (M P : Nat) (s : State) : Prop :=
  ∀ j k, j < M → k < P → (s .Bt).data k j = (s .B).data j k

/-- All four result buffers hold zero at every index of `[0,N) x [0,P)`. -/
def ZeroResults (N P : Nat) (s : State) : Prop :=
  ∀ c, c = Buf.C1 ∨ c = Buf.C2 ∨ c = Buf.C3 ∨ c = Buf.C4 →
    ∀ i k, i < N → k < P → (s c).data i k = 0

/-- A state after initialisation with given inputs: `A = a`, `B = b`, `Bt` the transpose of
`b`, and zeroed result buffers. -/
def inputState (N M P : Nat) (a b : Nat → Nat → Int) : State
  | .A => ⟨N, M, a⟩
  | .B => ⟨M, P, b⟩
  | .Bt => ⟨P, M, fun k j => b j k⟩
  | .C1 => ⟨N, P, fun _ _ => 0⟩
  | .C2 => ⟨N, P, fun _ _ => 0⟩
  | .C3 => ⟨N, P, fun _ _ => 0⟩
  | .C4 => ⟨N, P, fun _ _ => 0⟩

/-- The state `s` after the write `b[i][j] = v`. -/
def put (s : State) (b : Buf) (i j : Nat) (v : Int) : State :=
  fun x => if x = b then (s b).set i j v else s x

/-- The divisor `X * Y` of `rand() % (X * Y)` is not zero in `int` arithmetic whenever the
expression is evaluated, that is whenever both loop ranges are non-empty. -/
def ModulusOk (X Y : Nat) : Prop :=
  0 < X → 0 < Y → wrap32 ((X : Int) * (Y : Int)) ≠ 0

/-- The value `rand() % (X * Y) + 1` stored for the rand() result `r`. -/
def entryOf (X Y : Nat) (r : Int) : Int :=
  wrap32 (Int.tmod r (wrap32 ((X : Int) * (Y : Int))) + 1)

/-- Same buffer sizes in both states. -/
def SameDims (s s1 : State) : Prop :=
  ∀ b, (s1 b).rows = (s b).rows ∧ (s1 b).cols = (s b).cols

/-- From every state that differs from `s0` only in buffer `tgt`, the program `prog` returns
and changes at most that buffer. -/
def Runs (tgt : Buf) (s0 : State) (prog : State → Except Fault State) : Prop :=
  ∀ s1, SameBut tgt s0 s1 → ∃ s2, prog s1 = .ok s2 ∧ SameBut tgt s0 s2

/-- From every state that differs from `s0` only in buffer `tgt`, the program `prog` stops
with the fault `e`. -/
def Faults (tgt : Buf) (s0 : State) (prog : State → Except Fault State) (e : Fault) : Prop :=
  ∀ s1, SameBut tgt s0 s1 → prog s1 = .error e

/-- A `4 x 4` example state whose result buffers are not zero: `A[i][j] = i + 2 j`,
`B[j][k] = 60000 j + k`, `Bt` its transpose, and every result buffer `C[i][k] = 100 + i - k`. -/
def accumDemo : State :=
  allocate_matrix_buffers 4 4 4 (fun b r c =>
    match b with
    | .A => r + 2 * c
    | .B => 60000 * r + c
    | .Bt => 60000 * c + r
    | _ => 100 + r - c)

/-- Run on `s`, and then once more on the result, `prog` returns both times; on
`[0,n) x [0,n)` the target buffer `tgt` afterwards holds its initial content plus the product
(once, respectively twice) in `int` arithmetic, and the first result is the product itself
exactly when the entry started as zero. -/
def AccumulatesProduct (n : Nat) (tgt : Buf) (prog : State → Except Fault State) (s : State) :
    Prop :=
  ∃ s1 s2, prog s = .ok s1 ∧ prog s1 = .ok s2 ∧
    ∀ i k, i < n → k < n →
      (s1 tgt).data i k = wrap32 ((s tgt).data i k + dot n (s .A).data (s .B).data i k) ∧
      ((s1 tgt).data i k = matProd n (s .A).data (s .B).data i k ↔ (s tgt).data i k = 0) ∧
      (s2 tgt).data i k = wrap32 ((s tgt).data i k + 2 * dot n (s .A).data (s .B).data i k) ∧
      ((s tgt).data i k = 0 →
        (s2 tgt).data i k = wrap32 (2 * dot n (s .A).data (s .B).data i k))

/-- On every visit log the program `prog` returns, having appended `d t` occurrences of every
triple `t`. -/
def Appends (prog : List (Nat × Nat × Nat) → Except Fault (List (Nat × Nat × Nat)))
    (d : Nat × Nat × Nat → Int) : Prop :=
  ∀ l, ∃ l1, prog l = .ok l1 ∧ ∀ t, ((l1.count t : Nat) : Int) = ((l.count t : Nat) : Int) + d t

/-- The list `l` contains every triple of `[0,N) x [0,M) x [0,P)` exactly once and nothing
else. -/
def ExactlyOnce (N M P : Nat) (l : List (Nat × Nat × Nat)) : Prop :=
  (∀ t, l.count t = if t.1 < N ∧ t.2.1 < M ∧ t.2.2 < P then 1 else 0) ∧ l.Nodup ∧
    ∀ t, t ∈ l ↔ t.1 < N ∧ t.2.1 < M ∧ t.2.2 < P

/-! ## Wraparound arithmetic -/

theorem andThen_ok {ε α β : Type} (a : α) (k : α → Except ε β) :
    andThen (.ok a) k = k a := rfl

theorem andThen_error {ε α β : Type} (e : ε) (k : α → Except ε β) :
    andThen (.error e : Except ε α) k = .error e := rfl

theorem wrap32_modEq (x : Int) : wrap32 x ≡ x [ZMOD 4294967296] := by
  unfold wrap32 Int.ModEq
  omega

theorem wrap32_inRange (x : Int) : InRange (wrap32 x) := by
  unfold wrap32 InRange
  omega

theorem wrap32_of_inRange {x : Int} (h : InRange x) : wrap32 x = x := by
  unfold InRange at h
  unfold wrap32
  omega

theorem eq_wrap32_of_modEq {x y : Int} (hx : InRange x) (h : x ≡ y [ZMOD 4294967296]) :
    x = wrap32 y := by
  unfold InRange at hx
  unfold Int.ModEq at h
  unfold wrap32
  omega

theorem inRange_zero : InRange 0 := by decide

/-! ## Loop rules -/

/-- Total-correctness rule for `forLoop`: if the loop makes exactly `cnt` iterations, `I 0`
holds at entry and every iteration lifts `I t` to `I (t + 1)`, then with fuel for `cnt`
iterations the loop returns a state satisfying `I cnt`. -/
theorem forLoop_ok {σ : Type} (hi step : Nat) (body : Nat → σ → Except Fault σ) :
    ∀ (cnt : Nat) (I : Nat → σ → Prop) (fuel lo : Nat) (s : σ),
      I 0 s →
      (∀ t s1, t < cnt → I t s1 → ∃ s2, body (lo + t * step) s1 = .ok s2 ∧ I (t + 1) s2) →
      (∀ t, t < cnt → lo + t * step < hi) →
      hi ≤ lo + cnt * step → cnt ≤ fuel →
      ∃ s', forLoop hi step body fuel lo s = .ok s' ∧ I cnt s' := by
  intro cnt
  induction cnt with
  | zero =>
    intro I fuel lo s h0 _ _ hout _
    have hge : ¬ lo < hi := by omega
    refine ⟨s, ?_, h0⟩
    cases fuel <;> simp [forLoop, hge]
  | succ n ih =>
    intro I fuel lo s h0 hstep hin hout hfuel
    obtain ⟨f, rfl⟩ : ∃ f, fuel = f + 1 := ⟨fuel - 1, by omega⟩
    have hlt : lo < hi := by simpa using hin 0 (Nat.succ_pos n)
    obtain ⟨s2, hb, hI⟩ := hstep 0 s (Nat.succ_pos n) h0
    simp only [Nat.zero_mul, Nat.add_zero] at hb
    obtain ⟨s', hs', hI'⟩ := ih (fun t => I (t + 1)) f (lo + step) s2 hI
      (fun t s1 ht h1 => by
        have h2 := hstep (t + 1) s1 (by omega) h1
        rwa [show lo + (t + 1) * step = lo + step + t * step by ring] at h2)
      (fun t ht => by
        have h2 := hin (t + 1) (by omega)
        rwa [show lo + (t + 1) * step = lo + step + t * step by ring] at h2)
      (by rw [show lo + step + n * step = lo + (n + 1) * step by ring]; exact hout)
      (by omega)
    exact ⟨s', by simp [forLoop, hlt, hb, hs'], hI'⟩

/-- Fault rule for `forLoop`: if the first `cnt` iterations succeed and keep the invariant,
iteration `cnt` is still inside the loop range and its body faults with `e`, the loop faults
with `e`. -/
theorem forLoop_fault {σ : Type} (hi step : Nat) (body : Nat → σ → Except Fault σ) (e : Fault) :
    ∀ (cnt : Nat) (I : Nat → σ → Prop) (fuel lo : Nat) (s : σ),
      I 0 s →
      (∀ t s1, t < cnt → I t s1 → ∃ s2, body (lo + t * step) s1 = .ok s2 ∧ I (t + 1) s2) →
      (∀ t, t ≤ cnt → lo + t * step < hi) →
      (∀ s1, I cnt s1 → body (lo + cnt * step) s1 = .error e) → cnt < fuel →
      forLoop hi step body fuel lo s = .error e := by
  intro cnt
  induction cnt with
  | zero =>
    intro I fuel lo s h0 _ hin hbad hfuel
    obtain ⟨f, rfl⟩ : ∃ f, fuel = f + 1 := ⟨fuel - 1, by omega⟩
    have hlt : lo < hi := by simpa using hin 0 (Nat.le_refl 0)
    have hb := hbad s h0
    simp only [Nat.zero_mul, Nat.add_zero] at hb
    simp [forLoop, hlt, hb]
  | succ n ih =>
    intro I fuel lo s h0 hstep hin hbad hfuel
    obtain ⟨f, rfl⟩ : ∃ f, fuel = f + 1 := ⟨fuel - 1, by omega⟩
    have hlt : lo < hi := by simpa using hin 0 (Nat.zero_le _)
    obtain ⟨s2, hb, hI⟩ := hstep 0 s (Nat.succ_pos n) h0
    simp only [Nat.zero_mul, Nat.add_zero] at hb
    have hrec := ih (fun t => I (t + 1)) f (lo + step) s2 hI
      (fun t s1 ht h1 => by
        have h2 := hstep (t + 1) s1 (by omega) h1
        rwa [show lo + (t + 1) * step = lo + step + t * step by ring] at h2)
      (fun t ht => by
        have h2 := hin (t + 1) (by omega)
        rwa [show lo + (t + 1) * step = lo + step + t * step by ring] at h2)
      (fun s1 h1 => by
        have h2 := hbad s1 h1
        rwa [show lo + (n + 1) * step = lo + step + n * step by ring] at h2)
      (by omega)
    simp [forLoop, hlt, hb, hrec]

/-! ## Accumulation into one buffer -/

theorem SameBut.refl (tgt : Buf) (s : State) : SameBut tgt s s :=
  ⟨fun _ _ => rfl, rfl, rfl⟩

theorem SameBut.trans {tgt : Buf} {s s1 s2 : State} (h1 : SameBut tgt s s1)
    (h2 : SameBut tgt s1 s2) : SameBut tgt s s2 :=
  ⟨fun b hb => (h2.1 b hb).trans (h1.1 b hb), h2.2.1.trans h1.2.1, h2.2.2.trans h1.2.2⟩

theorem Accum.congr {tgt : Buf} {d d' : Nat → Nat → Int} {s s1 : State}
    (h : Accum tgt d s s1) (hd : ∀ a b, d a b = d' a b) : Accum tgt d' s s1 := by
  have : d = d' := by funext a b; exact hd a b
  rw [← this]; exact h

theorem Accum.zero (tgt : Buf) (s : State) : Accum tgt (fun _ _ => 0) s s :=
  ⟨SameBut.refl tgt s, fun a b => ⟨id, by simp [Int.ModEq]⟩⟩

theorem Accum.add {tgt : Buf} {d1 d2 : Nat → Nat → Int} {s s1 s2 : State}
    (h1 : Accum tgt d1 s s1) (h2 : Accum tgt d2 s1 s2) :
    Accum tgt (fun a b => d1 a b + d2 a b) s s2 := by
  refine ⟨h1.1.trans h2.1, fun a b => ⟨fun hr => (h2.2 a b).1 ((h1.2 a b).1 hr), ?_⟩⟩
  have e1 := (h1.2 a b).2
  have e2 := (h2.2 a b).2
  calc (s2 tgt).data a b ≡ (s1 tgt).data a b + d2 a b [ZMOD 4294967296] := e2
    _ ≡ ((s tgt).data a b + d1 a b) + d2 a b [ZMOD 4294967296] := e1.add_right _
    _ = (s tgt).data a b + (d1 a b + d2 a b) := by ring

theorem Adds.ofEq {tgt : Buf} {s0 : State} {prog : State → Except Fault State}
    {d d' : Nat → Nat → Int} (h : Adds tgt s0 prog d) (hd : ∀ a b, d a b = d' a b) :
    Adds tgt s0 prog d' := by
  intro s1 h1
  obtain ⟨s2, h2, h3⟩ := h s1 h1
  exact ⟨s2, h2, h3.congr hd⟩

/-- The multiply-accumulate statement adds the product of its two operands to entry `(a, b)`
of the target, provided all three accesses are in bounds and the operands are not the
target buffer. -/
theorem adds_mulAcc (tgt : Buf) (s0 : State) (a b : Nat) (x : Buf) (xi xj : Nat) (y : Buf)
    (yi yj : Nat) (hx : x ≠ tgt) (hy : y ≠ tgt)
    (ha : a < (s0 tgt).rows) (hb : b < (s0 tgt).cols)
    (hxi : xi < (s0 x).rows) (hxj : xj < (s0 x).cols)
    (hyi : yi < (s0 y).rows) (hyj : yj < (s0 y).cols) :
    Adds tgt s0 (mulAcc tgt a b x xi xj y yi yj)
      (fun r c => if r = a ∧ c = b then (s0 x).data xi xj * (s0 y).data yi yj else 0) := by
  intro s1 h1
  have ex : s1 x = s0 x := h1.1 x hx
  have ey : s1 y = s0 y := h1.1 y hy
  have l1 : load s1 tgt a b = .ok ((s1 tgt).data a b) := by
    simp [load, h1.2.1, h1.2.2, ha, hb]
  have l2 : load s1 x xi xj = .ok ((s0 x).data xi xj) := by
    simp [load, ex, hxi, hxj]
  have l3 : load s1 y yi yj = .ok ((s0 y).data yi yj) := by
    simp [load, ey, hyi, hyj]
  refine ⟨fun z => if z = tgt then (s1 tgt).set a b
      (wrap32 ((s1 tgt).data a b + wrap32 ((s0 x).data xi xj * (s0 y).data yi yj))) else s1 z,
    ?_, ⟨?_, ?_, ?_⟩, ?_⟩
  · simp [mulAcc, l1, l2, l3, store, h1.2.1, h1.2.2, ha, hb]
  · intro z hz; simp [hz]
  · simp [Matrix.set]
  · simp [Matrix.set]
  · intro r c
    by_cases hrc : r = a ∧ c = b
    · simp only [if_true, Matrix.set, hrc, and_self]
      refine ⟨fun _ => wrap32_inRange _, ?_⟩
      exact (wrap32_modEq _).trans ((Int.ModEq.refl _).add (wrap32_modEq _))
    · simp only [if_true, Matrix.set, hrc, if_false, add_zero]
      exact ⟨id, Int.ModEq.refl _⟩

/-- Accumulation rule for `forLoop`: a loop of exactly `cnt` iterations whose `t`-th body adds
`d t` adds the sum of the `d t`. -/
theorem adds_forLoop (tgt : Buf) (s0 : State) (hi step cnt fuel lo : Nat)
    (body : Nat → State → Except Fault State) (d : Nat → Nat → Nat → Int)
    (hbody : ∀ t, t < cnt → Adds tgt s0 (body (lo + t * step)) (d t))
    (hin : ∀ t, t < cnt → lo + t * step < hi) (hout : hi ≤ lo + cnt * step)
    (hfuel : cnt ≤ fuel) :
    Adds tgt s0 (forLoop hi step body fuel lo)
      (fun a b => ∑ t in Finset.range cnt, d t a b) := by
  intro s1 h1
  refine forLoop_ok hi step body cnt
    (fun t s' => Accum tgt (fun a b => ∑ u in Finset.range t, d u a b) s1 s') fuel lo s1
    ?_ ?_ hin hout hfuel
  · exact (Accum.zero tgt s1).congr (fun a b => by simp)
  · intro t s' ht hI
    obtain ⟨s2, hb, hacc⟩ := hbody t ht s' (h1.trans hI.1)
    exact ⟨s2, hb, (hI.add hacc).congr (fun a b => by rw [Finset.sum_range_succ])⟩

/-- Accumulation rule for the unit-step loop `for (i = lo; i < lo + cnt; ++i)`. -/
theorem adds_forUp (tgt : Buf) (s0 : State) (lo hi cnt : Nat)
    (body : Nat → State → Except Fault State) (d : Nat → Nat → Nat → Int) (hcnt : hi = lo + cnt)
    (hbody : ∀ t, t < cnt → Adds tgt s0 (body (lo + t)) (d t)) :
    Adds tgt s0 (forUp lo hi body) (fun a b => ∑ t in Finset.range cnt, d t a b) := by
  unfold forUp
  refine adds_forLoop tgt s0 hi 1 cnt (hi - lo) lo body d ?_ ?_ ?_ ?_
  · intro t ht; simpa using hbody t ht
  · intro t ht; omega
  · omega
  · omega

/-- Accumulation rule for the tile loop `for (i0 = 0; i0 < q * T; i0 += T)` with `T > 0`. -/
theorem adds_forStep (tgt : Buf) (s0 : State) (hi T q : Nat)
    (body : Nat → State → Except Fault State) (d : Nat → Nat → Nat → Int) (hT : 0 < T)
    (hq : hi = q * T) (hbody : ∀ t, t < q → Adds tgt s0 (body (t * T)) (d t)) :
    Adds tgt s0 (forStep hi T body) (fun a b => ∑ t in Finset.range q, d t a b) := by
  unfold forStep
  refine adds_forLoop tgt s0 hi T q hi 0 body d ?_ ?_ ?_ ?_
  · intro t ht; simpa using hbody t ht
  · intro t ht
    have : (t + 1) * T ≤ q * T := Nat.mul_le_mul_right T ht
    rw [hq, Nat.zero_add]
    calc t * T < (t + 1) * T := by rw [Nat.add_mul]; omega
      _ ≤ q * T := this
  · rw [hq, Nat.zero_add]
  · rw [hq]; exact Nat.le_mul_of_pos_right q hT

/-! ## Sums over the iteration spaces -/

theorem sum_ite_const (c : Prop) [Decidable c] (n : Nat) (f : Nat → Int) :
    ∑ j in Finset.range n, (if c then f j else 0) = if c then ∑ j in Finset.range n, f j else 0 := by
  split_ifs <;> simp

theorem sum_pick (N P : Nat) (G : Nat → Nat → Int) (a b : Nat) :
    ∑ i in Finset.range N, ∑ k in Finset.range P, (if a = i ∧ b = k then G i k else 0)
      = if a < N ∧ b < P then G a b else 0 := by
  have inner : ∀ i, ∑ k in Finset.range P, (if a = i ∧ b = k then G i k else 0)
      = if a = i then (if b < P then G i b else 0) else 0 := by
    intro i
    by_cases hi : a = i
    · simp [hi, Finset.sum_ite_eq]
    · simp [hi]
  simp only [inner, Finset.sum_ite_eq, Finset.mem_range]
  split_ifs <;> simp_all

/-- Summing tile by tile is summing over the whole range. -/
theorem sum_tiles (T q : Nat) (f : Nat → Int) :
    ∑ t in Finset.range q, ∑ u in Finset.range T, f (t * T + u)
      = ∑ i in Finset.range (q * T), f i := by
  induction q with
  | zero => simp
  | succ n ih => rw [Finset.sum_range_succ, ih, Nat.succ_mul, Finset.sum_range_add]

theorem sum_tiles2 (T qi qj : Nat) (G : Nat → Nat → Int) :
    ∑ ti in Finset.range qi, ∑ tj in Finset.range qj, ∑ u in Finset.range T,
        ∑ v in Finset.range T, G (ti * T + u) (tj * T + v)
      = ∑ i in Finset.range (qi * T), ∑ j in Finset.range (qj * T), G i j := by
  rw [← sum_tiles T qi]
  refine Finset.sum_congr rfl (fun ti _ => ?_)
  calc ∑ tj in Finset.range qj, ∑ u in Finset.range T, ∑ v in Finset.range T,
          G (ti * T + u) (tj * T + v)
      = ∑ u in Finset.range T, ∑ tj in Finset.range qj, ∑ v in Finset.range T,
          G (ti * T + u) (tj * T + v) := Finset.sum_comm
    _ = ∑ u in Finset.range T, ∑ j in Finset.range (qj * T), G (ti * T + u) j :=
        Finset.sum_congr rfl (fun u _ => sum_tiles T qj (fun j => G (ti * T + u) j))

theorem sum_tiles3 (T qi qj qk : Nat) (F : Nat → Nat → Nat → Int) :
    ∑ ti in Finset.range qi, ∑ tj in Finset.range qj, ∑ tk in Finset.range qk,
        ∑ u in Finset.range T, ∑ v in Finset.range T, ∑ w in Finset.range T,
          F (ti * T + u) (tj * T + v) (tk * T + w)
      = ∑ i in Finset.range (qi * T), ∑ j in Finset.range (qj * T),
          ∑ k in Finset.range (qk * T), F i j k := by
  rw [← sum_tiles2 T qi qj]
  refine Finset.sum_congr rfl (fun ti _ => Finset.sum_congr rfl (fun tj _ => ?_))
  calc ∑ tk in Finset.range qk, ∑ u in Finset.range T, ∑ v in Finset.range T,
          ∑ w in Finset.range T, F (ti * T + u) (tj * T + v) (tk * T + w)
      = ∑ u in Finset.range T, ∑ tk in Finset.range qk, ∑ v in Finset.range T,
          ∑ w in Finset.range T, F (ti * T + u) (tj * T + v) (tk * T + w) := Finset.sum_comm
    _ = ∑ u in Finset.range T, ∑ v in Finset.range T, ∑ tk in Finset.range qk,
          ∑ w in Finset.range T, F (ti * T + u) (tj * T + v) (tk * T + w) :=
        Finset.sum_congr rfl (fun u _ => Finset.sum_comm)
    _ = ∑ u in Finset.range T, ∑ v in Finset.range T, ∑ k in Finset.range (qk * T),
          F (ti * T + u) (tj * T + v) k :=
        Finset.sum_congr rfl (fun u _ => Finset.sum_congr rfl (fun v _ =>
          sum_tiles T qk (fun k => F (ti * T + u) (tj * T + v) k)))

/-! ## What each kernel adds to its buffer -/

theorem Allocated.of_sameBut {N M P : Nat} {tgt : Buf} {s s1 : State}
    (h : Allocated N M P s) (h1 : SameBut tgt s s1) : Allocated N M P s1 := by
  intro b
  by_cases hb : b = tgt
  · subst hb; rw [h1.2.1, h1.2.2]; exact h b
  · rw [h1.1 b hb]; exact h b

theorem naive_adds (N M P : Nat) (s0 : State) (h : Allocated N M P s0) :
    Adds .C1 s0 (naiveKernel N M P)
      (fun a b => if a < N ∧ b < P then dot M (s0 .A).data (s0 .B).data a b else 0) := by
  have h3 : Adds .C1 s0 (naiveKernel N M P) (fun a b =>
      ∑ i in Finset.range N, ∑ k in Finset.range P, ∑ j in Finset.range M,
        if a = i ∧ b = k then (s0 .A).data i j * (s0 .B).data j k else 0) := by
    unfold naiveKernel
    refine adds_forUp .C1 s0 0 N N _ (fun i a b =>
      ∑ k in Finset.range P, ∑ j in Finset.range M,
        if a = i ∧ b = k then (s0 .A).data i j * (s0 .B).data j k else 0) (by simp) ?_
    intro i hi
    rw [Nat.zero_add]
    refine adds_forUp .C1 s0 0 P P _ (fun k a b =>
      ∑ j in Finset.range M,
        if a = i ∧ b = k then (s0 .A).data i j * (s0 .B).data j k else 0) (by simp) ?_
    intro k hk
    rw [Nat.zero_add]
    refine adds_forUp .C1 s0 0 M M _ (fun j a b =>
        if a = i ∧ b = k then (s0 .A).data i j * (s0 .B).data j k else 0) (by simp) ?_
    intro j hj
    rw [Nat.zero_add]
    have hA := h .A; have hB := h .B; have hC := h .C1
    simp only [allocate_matrix_buffers] at hA hB hC
    exact adds_mulAcc .C1 s0 i k .A i j .B j k (by decide) (by decide)
      (by omega) (by omega) (by omega) (by omega) (by omega) (by omega)
  refine h3.ofEq (fun a b => ?_)
  simp only [sum_ite_const]
  rw [sum_pick N P (fun i k => ∑ j in Finset.range M, (s0 .A).data i j * (s0 .B).data j k)]
  rfl

theorem transposed_adds (N M P : Nat) (s0 : State) (h : Allocated N M P s0) :
    Adds .C2 s0 (transposedKernel N M P)
      (fun a b => if a < N ∧ b < P then dotRows M (s0 .A).data (s0 .Bt).data a b else 0) := by
  have h3 : Adds .C2 s0 (transposedKernel N M P) (fun a b =>
      ∑ i in Finset.range N, ∑ k in Finset.range P, ∑ j in Finset.range M,
        if a = i ∧ b = k then (s0 .A).data i j * (s0 .Bt).data k j else 0) := by
    unfold transposedKernel
    refine adds_forUp .C2 s0 0 N N _ (fun i a b =>
      ∑ k in Finset.range P, ∑ j in Finset.range M,
        if a = i ∧ b = k then (s0 .A).data i j * (s0 .Bt).data k j else 0) (by simp) ?_
    intro i hi
    rw [Nat.zero_add]
    refine adds_forUp .C2 s0 0 P P _ (fun k a b =>
      ∑ j in Finset.range M,
        if a = i ∧ b = k then (s0 .A).data i j * (s0 .Bt).data k j else 0) (by simp) ?_
    intro k hk
    rw [Nat.zero_add]
    refine adds_forUp .C2 s0 0 M M _ (fun j a b =>
        if a = i ∧ b = k then (s0 .A).data i j * (s0 .Bt).data k j else 0) (by simp) ?_
    intro j hj
    rw [Nat.zero_add]
    have hA := h .A; have hB := h .Bt; have hC := h .C2
    simp only [allocate_matrix_buffers] at hA hB hC
    exact adds_mulAcc .C2 s0 i k .A i j .Bt k j (by decide) (by decide)
      (by omega) (by omega) (by omega) (by omega) (by omega) (by omega)
  refine h3.ofEq (fun a b => ?_)
  simp only [sum_ite_const]
  rw [sum_pick N P (fun i k => ∑ j in Finset.range M, (s0 .A).data i j * (s0 .Bt).data k j)]
  rfl

theorem lt_of_tile {q T t u : Nat} (ht : t < q) (hu : u < T) : t * T + u < q * T := by
  have h1 : (t + 1) * T ≤ q * T := Nat.mul_le_mul_right T ht
  rw [Nat.add_mul, Nat.one_mul] at h1
  omega

/-- The tiled kernel, when the inner dimension and the number of result columns are the same
number `M` and `T > 0` divides `N` and `M`. -/
theorem tiled_adds (N M T qN qM : Nat) (s0 : State) (hT : 0 < T) (hN : N = qN * T)
    (hM : M = qM * T) (h : Allocated N M M s0) :
    Adds .C3 s0 (tiledKernel N M M T)
      (fun a b => if a < N ∧ b < M then dotRows M (s0 .A).data (s0 .Bt).data a b else 0) := by
  have h6 : Adds .C3 s0 (tiledKernel N M M T) (fun a b =>
      ∑ ti in Finset.range qN, ∑ tj in Finset.range qM, ∑ tk in Finset.range qM,
        ∑ u in Finset.range T, ∑ v in Finset.range T, ∑ w in Finset.range T,
          (fun i j k => if a = i ∧ b = j then (s0 .A).data i k * (s0 .Bt).data j k else 0)
            (ti * T + u) (tj * T + v) (tk * T + w)) := by
    unfold tiledKernel tiledNest
    refine adds_forStep .C3 s0 N T qN _ (fun ti a b =>
      ∑ tj in Finset.range qM, ∑ tk in Finset.range qM,
        ∑ u in Finset.range T, ∑ v in Finset.range T, ∑ w in Finset.range T,
          (fun i j k => if a = i ∧ b = j then (s0 .A).data i k * (s0 .Bt).data j k else 0)
            (ti * T + u) (tj * T + v) (tk * T + w)) hT hN ?_
    intro ti hti
    refine adds_forStep .C3 s0 M T qM _ (fun tj a b =>
      ∑ tk in Finset.range qM,
        ∑ u in Finset.range T, ∑ v in Finset.range T, ∑ w in Finset.range T,
          (fun i j k => if a = i ∧ b = j then (s0 .A).data i k * (s0 .Bt).data j k else 0)
            (ti * T + u) (tj * T + v) (tk * T + w)) hT hM ?_
    intro tj htj
    refine adds_forStep .C3 s0 M T qM _ (fun tk a b =>
        ∑ u in Finset.range T, ∑ v in Finset.range T, ∑ w in Finset.range T,
          (fun i j k => if a = i ∧ b = j then (s0 .A).data i k * (s0 .Bt).data j k else 0)
            (ti * T + u) (tj * T + v) (tk * T + w)) hT hM ?_
    intro tk htk
    refine adds_forUp .C3 s0 (ti * T) (ti * T + T) T _ (fun u a b =>
        ∑ v in Finset.range T, ∑ w in Finset.range T,
          (fun i j k => if a = i ∧ b = j then (s0 .A).data i k * (s0 .Bt).data j k else 0)
            (ti * T + u) (tj * T + v) (tk * T + w)) rfl ?_
    intro u hu
    refine adds_forUp .C3 s0 (tj * T) (tj * T + T) T _ (fun v a b =>
        ∑ w in Finset.range T,
          (fun i j k => if a = i ∧ b = j then (s0 .A).data i k * (s0 .Bt).data j k else 0)
            (ti * T + u) (tj * T + v) (tk * T + w)) rfl ?_
    intro v hv
    refine adds_forUp .C3 s0 (tk * T) (tk * T + T) T _ (fun w a b =>
          (fun i j k => if a = i ∧ b = j then (s0 .A).data i k * (s0 .Bt).data j k else 0)
            (ti * T + u) (tj * T + v) (tk * T + w)) rfl ?_
    intro w hw
    have hA := h .A; have hB := h .Bt; have hC := h .C3
    simp only [allocate_matrix_buffers] at hA hB hC
    have b1 := lt_of_tile hti hu
    have b2 := lt_of_tile htj hv
    have b3 := lt_of_tile htk hw
    exact adds_mulAcc .C3 s0 (ti * T + u) (tj * T + v) .A (ti * T + u) (tk * T + w) .Bt
      (tj * T + v) (tk * T + w) (by decide) (by decide)
      (by omega) (by omega) (by omega) (by omega) (by omega) (by omega)
  refine h6.ofEq (fun a b => ?_)
  rw [sum_tiles3 T qN qM qM
    (fun i j k => if a = i ∧ b = j then (s0 .A).data i k * (s0 .Bt).data j k else 0),
    ← hN, ← hM]
  simp only [sum_ite_const]
  rw [sum_pick N M (fun i k => ∑ j in Finset.range M, (s0 .A).data i j * (s0 .Bt).data k j)]
  rfl

/-- The flat tiled kernel, when `T > 0` divides `N` and `M` and the result has at least `M`
columns: it adds the products to the columns below `M` only. -/
theorem flatTiled_adds (N M P T qN qM : Nat) (s0 : State) (hT : 0 < T) (hN : N = qN * T)
    (hM : M = qM * T) (hMP : M ≤ P) (h : Allocated N M P s0) :
    Adds .C4 s0 (flatTiledKernel N M T)
      (fun a b => if a < N ∧ b < M then dotRows M (s0 .A).data (s0 .Bt).data a b else 0) := by
  have h5 : Adds .C4 s0 (flatTiledKernel N M T) (fun a b =>
      ∑ ti in Finset.range qN, ∑ tj in Finset.range qM,
        ∑ u in Finset.range T, ∑ v in Finset.range T,
          (fun i j => ∑ k in Finset.range M,
            if a = i ∧ b = j then (s0 .A).data i k * (s0 .Bt).data j k else 0)
            (ti * T + u) (tj * T + v)) := by
    unfold flatTiledKernel flatTiledNest
    refine adds_forStep .C4 s0 N T qN _ (fun ti a b =>
      ∑ tj in Finset.range qM, ∑ u in Finset.range T, ∑ v in Finset.range T,
          (fun i j => ∑ k in Finset.range M,
            if a = i ∧ b = j then (s0 .A).data i k * (s0 .Bt).data j k else 0)
            (ti * T + u) (tj * T + v)) hT hN ?_
    intro ti hti
    refine adds_forStep .C4 s0 M T qM _ (fun tj a b =>
      ∑ u in Finset.range T, ∑ v in Finset.range T,
          (fun i j => ∑ k in Finset.range M,
            if a = i ∧ b = j then (s0 .A).data i k * (s0 .Bt).data j k else 0)
            (ti * T + u) (tj * T + v)) hT hM ?_
    intro tj htj
    refine adds_forUp .C4 s0 (ti * T) (ti * T + T) T _ (fun u a b =>
        ∑ v in Finset.range T,
          (fun i j => ∑ k in Finset.range M,
            if a = i ∧ b = j then (s0 .A).data i k * (s0 .Bt).data j k else 0)
            (ti * T + u) (tj * T + v)) rfl ?_
    intro u hu
    refine adds_forUp .C4 s0 (tj * T) (tj * T + T) T _ (fun v a b =>
          (fun i j => ∑ k in Finset.range M,
            if a = i ∧ b = j then (s0 .A).data i k * (s0 .Bt).data j k else 0)
            (ti * T + u) (tj * T + v)) rfl ?_
    intro v hv
    refine adds_forUp .C4 s0 0 M M _ (fun k a b =>
        if a = ti * T + u ∧ b = tj * T + v then
          (s0 .A).data (ti * T + u) k * (s0 .Bt).data (tj * T + v) k else 0) (by simp) ?_
    intro k hk
    rw [Nat.zero_add]
    have hA := h .A; have hB := h .Bt; have hC := h .C4
    simp only [allocate_matrix_buffers] at hA hB hC
    have b1 := lt_of_tile hti hu
    have b2 := lt_of_tile htj hv
    exact adds_mulAcc .C4 s0 (ti * T + u) (tj * T + v) .A (ti * T + u) k .Bt
      (tj * T + v) k (by decide) (by decide)
      (by omega) (by omega) (by omega) (by omega) (by omega) (by omega)
  refine h5.ofEq (fun a b => ?_)
  rw [sum_tiles2 T qN qM
    (fun i j => ∑ k in Finset.range M,
      if a = i ∧ b = j then (s0 .A).data i k * (s0 .Bt).data j k else 0),
    ← hN, ← hM]
  simp only [sum_ite_const]
  rw [sum_pick N M (fun i k => ∑ j in Finset.range M, (s0 .A).data i j * (s0 .Bt).data k j)]
  rfl

/-! ## Results of the kernels -/

theorem Accum.value {tgt : Buf} {d : Nat → Nat → Int} {s s1 : State} (h : Accum tgt d s s1)
    (a b : Nat) (hr : InRange ((s tgt).data a b)) :
    (s1 tgt).data a b = wrap32 ((s tgt).data a b + d a b) :=
  eq_wrap32_of_modEq ((h.2 a b).1 hr) (h.2 a b).2

theorem Accum.value_zero {tgt : Buf} {d : Nat → Nat → Int} {s s1 : State}
    (h : Accum tgt d s s1) (a b : Nat) (hz : (s tgt).data a b = 0) :
    (s1 tgt).data a b = wrap32 (d a b) := by
  have hv := h.value a b (by rw [hz]; exact inRange_zero)
  rw [hv, hz, zero_add]

theorem dotRows_eq_dot (M : Nat) (X Y Yt : Nat → Nat → Int) (a b : Nat)
    (h : ∀ j, j < M → Yt b j = Y j b) : dotRows M X Yt a b = dot M X Y a b := by
  unfold dotRows dot
  exact Finset.sum_congr rfl (fun j hj => by rw [h j (Finset.mem_range.mp hj)])

theorem matProd_eq (M : Nat) (X Y : Nat → Nat → Int) (a b : Nat) :
    matProd M X Y a b = wrap32 (dot M X Y a b) := rfl

theorem naive_result (N M P : Nat) (s : State) (h : Allocated N M P s) :
    ∃ s1, naiveKernel N M P s = .ok s1 ∧ SameBut .C1 s s1 ∧
      ∀ i k, i < N → k < P → (s .C1).data i k = 0 →
        (s1 .C1).data i k = matProd M (s .A).data (s .B).data i k := by
  obtain ⟨s1, hk, hacc⟩ := naive_adds N M P s h s (SameBut.refl _ _)
  refine ⟨s1, hk, hacc.1, fun i k hi hk hz => ?_⟩
  rw [hacc.value_zero i k hz, matProd_eq]
  simp [hi, hk]

theorem transposed_result (N M P : Nat) (s : State) (h : Allocated N M P s)
    (htr : Transposed M P s) :
    ∃ s1, transposedKernel N M P s = .ok s1 ∧ SameBut .C2 s s1 ∧
      ∀ i k, i < N → k < P → (s .C2).data i k = 0 →
        (s1 .C2).data i k = matProd M (s .A).data (s .B).data i k := by
  obtain ⟨s1, hk, hacc⟩ := transposed_adds N M P s h s (SameBut.refl _ _)
  refine ⟨s1, hk, hacc.1, fun i k hi hk hz => ?_⟩
  rw [hacc.value_zero i k hz, matProd_eq]
  simp only [hi, hk, and_self, if_true]
  rw [dotRows_eq_dot M _ (s .B).data _ i k (fun j hj => htr j k hj hk)]

theorem tiled_result (N M T : Nat) (s : State) (hT : 0 < T) (hN : T ∣ N) (hM : T ∣ M)
    (h : Allocated N M M s) (htr : Transposed M M s) :
    ∃ s1, tiledKernel N M M T s = .ok s1 ∧ SameBut .C3 s s1 ∧
      ∀ i k, i < N → k < M → (s .C3).data i k = 0 →
        (s1 .C3).data i k = matProd M (s .A).data (s .B).data i k := by
  obtain ⟨qN, hqN⟩ := hN
  obtain ⟨qM, hqM⟩ := hM
  obtain ⟨s1, hk, hacc⟩ := tiled_adds N M T qN qM s hT (by rw [hqN, Nat.mul_comm])
    (by rw [hqM, Nat.mul_comm]) h s (SameBut.refl _ _)
  refine ⟨s1, hk, hacc.1, fun i k hi hk hz => ?_⟩
  rw [hacc.value_zero i k hz, matProd_eq]
  simp only [hi, hk, and_self, if_true]
  rw [dotRows_eq_dot M _ (s .B).data _ i k (fun j hj => htr j k hj hk)]

theorem flatTiled_result (N M P T : Nat) (s : State) (hT : 0 < T) (hN : T ∣ N) (hM : T ∣ M)
    (hMP : M ≤ P) (h : Allocated N M P s) (htr : Transposed M P s) :
    ∃ s1, flatTiledKernel N M T s = .ok s1 ∧ SameBut .C4 s s1 ∧
      ∀ i k, i < N → k < M → (s .C4).data i k = 0 →
        (s1 .C4).data i k = matProd M (s .A).data (s .B).data i k := by
  obtain ⟨qN, hqN⟩ := hN
  obtain ⟨qM, hqM⟩ := hM
  obtain ⟨s1, hk, hacc⟩ := flatTiled_adds N M P T qN qM s hT (by rw [hqN, Nat.mul_comm])
    (by rw [hqM, Nat.mul_comm]) hMP h s (SameBut.refl _ _)
  refine ⟨s1, hk, hacc.1, fun i k hi hk hz => ?_⟩
  rw [hacc.value_zero i k hz, matProd_eq]
  simp only [hi, hk, and_self, if_true]
  rw [dotRows_eq_dot M _ (s .B).data _ i k (fun j hj => htr j k hj (by omega))]

theorem Transposed.frame {M P : Nat} {tgt : Buf} {s s1 : State} (h : Transposed M P s)
    (h1 : SameBut tgt s s1) (hB : Buf.B ≠ tgt) (hBt : Buf.Bt ≠ tgt) : Transposed M P s1 := by
  intro j k hj hk
  rw [h1.1 .B hB, h1.1 .Bt hBt]
  exact h j k hj hk

/-- The four kernels in sequence, when the inner dimension and the number of result columns
are the same number `M` and `T > 0` divides `N` and `M`: all four return, the inputs are
unchanged and every result buffer holds the product. -/
theorem kernels_result (N M T : Nat) (s : State) (hT : 0 < T) (hN : T ∣ N) (hM : T ∣ M)
    (h : Allocated N M M s) (htr : Transposed M M s) (hz : ZeroResults N M s) :
    ∃ s4, kernels N M M T s = .ok s4 ∧ Allocated N M M s4 ∧
      s4 .A = s .A ∧ s4 .B = s .B ∧ s4 .Bt = s .Bt ∧
      ∀ c, c = Buf.C1 ∨ c = Buf.C2 ∨ c = Buf.C3 ∨ c = Buf.C4 →
        ∀ i k, i < N → k < M → (s4 c).data i k = matProd M (s .A).data (s .B).data i k := by
  obtain ⟨s1, e1, f1, v1⟩ := naive_result N M M s h
  have a1 := h.of_sameBut f1
  obtain ⟨s2, e2, f2, v2⟩ := transposed_result N M M s1 a1
    (htr.frame f1 (by decide) (by decide))
  have a2 := a1.of_sameBut f2
  have t2 : Transposed M M s2 :=
    (htr.frame f1 (by decide) (by decide)).frame f2 (by decide) (by decide)
  obtain ⟨s3, e3, f3, v3⟩ := tiled_result N M T s2 hT hN hM a2 t2
  have a3 := a2.of_sameBut f3
  obtain ⟨s4, e4, f4, v4⟩ := flatTiled_result N M M T s3 hT hN hM (Nat.le_refl M) a3
    (t2.frame f3 (by decide) (by decide))
  have kA : ∀ b, b = Buf.A ∨ b = Buf.B → s4 b = s b ∧ s3 b = s b ∧ s2 b = s b ∧ s1 b = s b := by
    intro b hb
    have n1 : b ≠ Buf.C1 := by rcases hb with rfl | rfl <;> decide
    have n2 : b ≠ Buf.C2 := by rcases hb with rfl | rfl <;> decide
    have n3 : b ≠ Buf.C3 := by rcases hb with rfl | rfl <;> decide
    have n4 : b ≠ Buf.C4 := by rcases hb with rfl | rfl <;> decide
    refine ⟨?_, ?_, ?_, f1.1 b n1⟩
    · rw [f4.1 b n4, f3.1 b n3, f2.1 b n2, f1.1 b n1]
    · rw [f3.1 b n3, f2.1 b n2, f1.1 b n1]
    · rw [f2.1 b n2, f1.1 b n1]
  refine ⟨s4, ?_, a3.of_sameBut f4, (kA .A (Or.inl rfl)).1, (kA .B (Or.inr rfl)).1, ?_, ?_⟩
  · simp [kernels, atStage, andThen_ok, e1, e2, e3, e4]
  · rw [f4.1 .Bt (by decide), f3.1 .Bt (by decide), f2.1 .Bt (by decide),
      f1.1 .Bt (by decide)]
  · intro c hc i k hi hk
    rcases hc with rfl | rfl | rfl | rfl
    · rw [f4.1 .C1 (by decide), f3.1 .C1 (by decide), f2.1 .C1 (by decide)]
      exact v1 i k hi hk (hz .C1 (by simp) i k hi hk)
    · rw [f4.1 .C2 (by decide), f3.1 .C2 (by decide)]
      rw [v2 i k hi hk (by rw [f1.1 .C2 (by decide)]; exact hz .C2 (by simp) i k hi hk)]
      rw [(kA .A (Or.inl rfl)).2.2.2, (kA .B (Or.inr rfl)).2.2.2]
    · rw [f4.1 .C3 (by decide)]
      rw [v3 i k hi hk (by
        rw [f2.1 .C3 (by decide), f1.1 .C3 (by decide)]; exact hz .C3 (by simp) i k hi hk)]
      rw [(kA .A (Or.inl rfl)).2.2.1, (kA .B (Or.inr rfl)).2.2.1]
    · rw [v4 i k hi hk (by
        rw [f3.1 .C4 (by decide), f2.1 .C4 (by decide), f1.1 .C4 (by decide)]
        exact hz .C4 (by simp) i k hi hk)]
      rw [(kA .A (Or.inl rfl)).2.1, (kA .B (Or.inr rfl)).2.1]

/-! ## Verification -/

theorem inputState_allocated (N M P : Nat) (a b : Nat → Nat → Int) :
    Allocated N M P (inputState N M P a b) := by
  intro c; cases c <;> exact ⟨rfl, rfl⟩

theorem inputState_transposed (N M P : Nat) (a b : Nat → Nat → Int) :
    Transposed M P (inputState N M P a b) := fun _ _ _ _ => rfl

theorem inputState_zero (N M P : Nat) (a b : Nat → Nat → Int) :
    ZeroResults N P (inputState N M P a b) := by
  intro c hc i k _ _
  rcases hc with rfl | rfl | rfl | rfl <;> rfl

theorem forUp_fixed {σ : Type} (lo hi : Nat) (body : Nat → σ → Except Fault σ) (s : σ)
    (h : ∀ i, lo ≤ i → i < hi → body i s = .ok s) : forUp lo hi body s = .ok s := by
  obtain ⟨s1, h1, h2⟩ := forLoop_ok hi 1 body (hi - lo) (fun _ s1 => s1 = s) (hi - lo) lo s rfl
    (fun t s1 ht h1 => ⟨s, by rw [h1]; exact h _ (by omega) (by omega), rfl⟩)
    (fun t ht => by omega) (by omega) (Nat.le_refl _)
  unfold forUp
  rw [h1, h2]

theorem verify_ok (N M P : Nat) (s : State) (h : Allocated N M P s)
    (heq : ∀ i k, i < N → k < P → (s .C1).data i k = (s .C2).data i k ∧
      (s .C2).data i k = (s .C3).data i k ∧ (s .C3).data i k = (s .C4).data i k) :
    verify_matrix_multiplication N P s = .ok s := by
  unfold verify_matrix_multiplication
  refine forUp_fixed 0 N _ s (fun i _ hi => forUp_fixed 0 P _ s (fun k _ hk => ?_))
  have h1 := h .C1; have h2 := h .C2; have h3 := h .C3; have h4 := h .C4
  simp only [allocate_matrix_buffers] at h1 h2 h3 h4
  obtain ⟨e1, e2, e3⟩ := heq i k hi hk
  simp [verifyAt, load, h1, h2, h3, h4, hi, hk, e1, e2, e3]

/-! ## Initialisation -/

theorem store_ok (s : State) (b : Buf) (i j : Nat) (v : Int) (hi : i < (s b).rows)
    (hj : j < (s b).cols) : store s b i j v = .ok (put s b i j v) := by
  simp only [store, hi, hj, and_self, if_true]
  rfl

theorem put_rows (s : State) (b : Buf) (i j : Nat) (v : Int) (x : Buf) :
    (put s b i j v x).rows = (s x).rows := by
  unfold put
  by_cases h : x = b
  · subst h; simp [Matrix.set]
  · simp [h]

theorem put_cols (s : State) (b : Buf) (i j : Nat) (v : Int) (x : Buf) :
    (put s b i j v x).cols = (s x).cols := by
  unfold put
  by_cases h : x = b
  · subst h; simp [Matrix.set]
  · simp [h]

theorem put_other (s : State) (b : Buf) (i j : Nat) (v : Int) (x : Buf) (h : x ≠ b) :
    put s b i j v x = s x := by
  simp [put, h]

theorem put_data (s : State) (b : Buf) (i j : Nat) (v : Int) (r c : Nat) :
    (put s b i j v b).data r c = if r = i ∧ c = j then v else (s b).data r c := by
  simp [put, Matrix.set]

theorem pair_unique {C i j i' j' : Nat} (hj : j < C) (hj' : j' < C)
    (h : i' * C + j' = i * C + j) : i' = i ∧ j' = j := by
  have h1 : (i' * C + j') / C = i' := by
    rw [Nat.add_comm, Nat.add_mul_div_right _ _ (by omega), Nat.div_eq_of_lt hj', Nat.zero_add]
  have h2 : (i * C + j) / C = i := by
    rw [Nat.add_comm, Nat.add_mul_div_right _ _ (by omega), Nat.div_eq_of_lt hj, Nat.zero_add]
  have e : i' = i := by rw [← h1, ← h2, h]
  subst e
  exact ⟨rfl, by omega⟩

theorem forUp_ok {σ : Type} (lo cnt : Nat) (body : Nat → σ → Except Fault σ)
    (I : Nat → σ → Prop) (s : σ) (h0 : I 0 s)
    (hstep : ∀ t s1, t < cnt → I t s1 → ∃ s2, body (lo + t) s1 = .ok s2 ∧ I (t + 1) s2) :
    ∃ s', forUp lo (lo + cnt) body s = .ok s' ∧ I cnt s' := by
  unfold forUp
  refine forLoop_ok (lo + cnt) 1 body cnt I (lo + cnt - lo) lo s h0 ?_ ?_ ?_ ?_
  · intro t s1 ht h1; simpa using hstep t s1 ht h1
  · intro t ht; omega
  · omega
  · omega

/-- Rule for a doubly nested unit-step loop over `[0,R) x [0,C)`, with the invariant indexed
by the number `i * C + j` of body executions made so far. -/
theorem forUp2_ok {σ : Type} (R C : Nat) (body : Nat → Nat → σ → Except Fault σ)
    (J : Nat → σ → Prop) (s : σ) (h0 : J 0 s)
    (hstep : ∀ i j s1, i < R → j < C → J (i * C + j) s1 →
      ∃ s2, body i j s1 = .ok s2 ∧ J (i * C + j + 1) s2) :
    ∃ s', forUp 0 R (fun i => forUp 0 C (fun j => body i j)) s = .ok s' ∧ J (R * C) s' := by
  have hout := forUp_ok 0 R (fun i => forUp 0 C (fun j => body i j)) (fun t s1 => J (t * C) s1) s
    (by simpa using h0) (fun i s1 hi h1 => by
      have hin := forUp_ok 0 C (fun j => body (0 + i) j) (fun t s2 => J (i * C + t) s2) s1
        (by simpa using h1) (fun j s2 hj h2 => by
          have := hstep i j s2 hi hj h2
          simpa [Nat.add_assoc] using this)
      simp only [Nat.zero_add] at hin ⊢
      obtain ⟨s', e, hJ⟩ := hin
      exact ⟨s', e, by rw [Nat.add_mul, Nat.one_mul]; exact hJ⟩)
  simpa using hout

theorem randomEntry_ok (X Y : Nat) (r : Int) (h : wrap32 ((X : Int) * (Y : Int)) ≠ 0) :
    randomEntry X Y r = .ok (entryOf X Y r) := by
  simp [randomEntry, entryOf, h]

theorem initA_loop (N M P : Nat) (rand : Nat → Int) (s : State) (h : Allocated N M P s)
    (hm : ModulusOk N M) :
    ∃ s1, forUp 0 N (fun i => forUp 0 M (fun j => initA N M rand i j)) (s, 0)
        = .ok (s1, N * M) ∧ SameDims s s1 ∧ (∀ b, b ≠ Buf.A → s1 b = s b) ∧
      ∀ i j, i < N → j < M → (s1 .A).data i j = entryOf N M (rand (i * M + j)) := by
  obtain ⟨sc, e, hc, hd, hf, hv⟩ := forUp2_ok N M (fun i j => initA N M rand i j)
    (fun n sc => sc.2 = n ∧ SameDims s sc.1 ∧ (∀ b, b ≠ Buf.A → sc.1 b = s b) ∧
      ∀ i j, j < M → i * M + j < n → (sc.1 .A).data i j = entryOf N M (rand (i * M + j)))
    (s, 0) ⟨rfl, fun _ => ⟨rfl, rfl⟩, fun _ _ => rfl, fun i j _ hlt => by omega⟩
    (fun i j sc hi hj hJ => by
      obtain ⟨s1, c1⟩ := sc
      obtain ⟨hc, hd, hf, hv⟩ := hJ
      simp only at hc hd hf hv
      subst hc
      have hA := h .A
      simp only [allocate_matrix_buffers] at hA
      have hr := randomEntry_ok N M (rand (i * M + j)) (hm (by omega) (by omega))
      have hs := store_ok s1 .A i j (entryOf N M (rand (i * M + j)))
        (by rw [(hd .A).1]; omega) (by rw [(hd .A).2]; omega)
      refine ⟨(put s1 .A i j (entryOf N M (rand (i * M + j))), i * M + j + 1), ?_, rfl, ?_, ?_, ?_⟩
      · simp [initA, hr, hs, andThen_ok]
      · intro b; rw [put_rows, put_cols]; exact hd b
      · intro b hb; simp only; rw [put_other _ _ _ _ _ _ hb]; exact hf b hb
      · intro i' j' hj' hlt
        simp only
        rw [put_data]
        by_cases hij : i' = i ∧ j' = j
        · rw [if_pos hij, hij.1, hij.2]
        · rw [if_neg hij]
          refine hv i' j' hj' ?_
          have hne : i' * M + j' ≠ i * M + j := fun he => hij (pair_unique hj hj' he)
          omega)
  obtain ⟨s1, c1⟩ := sc
  simp only at hc hd hf hv
  subst hc
  exact ⟨s1, e, hd, hf, fun i j hi hj => hv i j hj (lt_of_tile hi hj)⟩

theorem initB_loop (N M P : Nat) (rand : Nat → Int) (s : State) (c0 : Nat)
    (h : Allocated N M P s) (hm : ModulusOk M P) :
    ∃ s1, forUp 0 M (fun j => forUp 0 P (fun k => initB M P rand j k)) (s, c0)
        = .ok (s1, c0 + M * P) ∧ SameDims s s1 ∧
      (∀ b, b ≠ Buf.B → b ≠ Buf.Bt → s1 b = s b) ∧
      ∀ j k, j < M → k < P → (s1 .B).data j k = entryOf M P (rand (c0 + (j * P + k))) ∧
        (s1 .Bt).data k j = (s1 .B).data j k := by
  obtain ⟨sc, e, hc, hd, hf, hv⟩ := forUp2_ok M P (fun j k => initB M P rand j k)
    (fun n sc => sc.2 = c0 + n ∧ SameDims s sc.1 ∧
      (∀ b, b ≠ Buf.B → b ≠ Buf.Bt → sc.1 b = s b) ∧
      ∀ j k, k < P → j * P + k < n →
        (sc.1 .B).data j k = entryOf M P (rand (c0 + (j * P + k))) ∧
        (sc.1 .Bt).data k j = (sc.1 .B).data j k)
    (s, c0) ⟨rfl, fun _ => ⟨rfl, rfl⟩, fun _ _ _ => rfl, fun j k _ hlt => by omega⟩
    (fun j k sc hj hk hJ => by
      obtain ⟨s1, c1⟩ := sc
      obtain ⟨hc, hd, hf, hv⟩ := hJ
      simp only at hc hd hf hv
      subst hc
      have hB := h .B; have hBt := h .Bt
      simp only [allocate_matrix_buffers] at hB hBt
      have hr := randomEntry_ok M P (rand (c0 + (j * P + k))) (hm (by omega) (by omega))
      have hs := store_ok s1 .B j k (entryOf M P (rand (c0 + (j * P + k))))
        (by rw [(hd .B).1]; omega) (by rw [(hd .B).2]; omega)
      have hl : load (put s1 .B j k (entryOf M P (rand (c0 + (j * P + k))))) .B j k
          = .ok (entryOf M P (rand (c0 + (j * P + k)))) := by
        have r1 : j < (s1 .B).rows := by rw [(hd .B).1]; omega
        have r2 : k < (s1 .B).cols := by rw [(hd .B).2]; omega
        simp [load, put_rows, put_cols, put_data, r1, r2]
      have hs2 := store_ok (put s1 .B j k (entryOf M P (rand (c0 + (j * P + k))))) .Bt k j
        (entryOf M P (rand (c0 + (j * P + k))))
        (by rw [put_rows, (hd .Bt).1]; omega) (by rw [put_cols, (hd .Bt).2]; omega)
      refine ⟨(put (put s1 .B j k (entryOf M P (rand (c0 + (j * P + k))))) .Bt k j
        (entryOf M P (rand (c0 + (j * P + k)))), c0 + (j * P + k) + 1), ?_, rfl, ?_, ?_, ?_⟩
      · simp [initB, hr, hs, hl, hs2, andThen_ok]
      · intro b; rw [put_rows, put_cols, put_rows, put_cols]; exact hd b
      · intro b hb hbt
        simp only
        rw [put_other _ _ _ _ _ _ hbt, put_other _ _ _ _ _ _ hb]
        exact hf b hb hbt
      · intro j' k' hk' hlt
        simp only
        rw [put_other _ .Bt _ _ _ .B (by decide), put_data, put_data,
          put_other _ .B _ _ _ .Bt (by decide)]
        by_cases hjk : j' = j ∧ k' = k
        · rw [if_pos hjk, if_pos ⟨hjk.2, hjk.1⟩, hjk.1, hjk.2]
          exact ⟨rfl, rfl⟩
        · rw [if_neg hjk, if_neg (fun hh => hjk ⟨hh.2, hh.1⟩)]
          refine hv j' k' hk' ?_
          have hne : j' * P + k' ≠ j * P + k := fun he => hjk (pair_unique hk hk' he)
          omega)
  obtain ⟨s1, c1⟩ := sc
  simp only at hc hd hf hv
  subst hc
  exact ⟨s1, e, hd, hf, fun j k hj hk => hv j k hk (lt_of_tile hj hk)⟩

theorem initC_loop (N M P : Nat) (s : State) (h : Allocated N M P s) :
    ∃ s1, forUp 0 N (fun i => forUp 0 P (fun k => initC i k)) s = .ok s1 ∧ SameDims s s1 ∧
      (∀ b, b = Buf.A ∨ b = Buf.B ∨ b = Buf.Bt → s1 b = s b) ∧ ZeroResults N P s1 := by
  obtain ⟨s1, e, hd, hf, hv⟩ := forUp2_ok N P (fun i k => initC i k)
    (fun n s1 => SameDims s s1 ∧ (∀ b, b = Buf.A ∨ b = Buf.B ∨ b = Buf.Bt → s1 b = s b) ∧
      ∀ c, c = Buf.C1 ∨ c = Buf.C2 ∨ c = Buf.C3 ∨ c = Buf.C4 →
        ∀ i k, k < P → i * P + k < n → (s1 c).data i k = 0)
    s ⟨fun _ => ⟨rfl, rfl⟩, fun _ _ => rfl, fun c _ i k _ hlt => by omega⟩
    (fun i k s1 hi hk hJ => by
      obtain ⟨hd, hf, hv⟩ := hJ
      have h1 := h .C1; have h2 := h .C2; have h3 := h .C3; have h4 := h .C4
      simp only [allocate_matrix_buffers] at h1 h2 h3 h4
      have e1 := store_ok s1 .C1 i k 0 (by rw [(hd .C1).1]; omega) (by rw [(hd .C1).2]; omega)
      have e2 := store_ok (put s1 .C1 i k 0) .C2 i k 0
        (by rw [put_rows, (hd .C2).1]; omega) (by rw [put_cols, (hd .C2).2]; omega)
      have e3 := store_ok (put (put s1 .C1 i k 0) .C2 i k 0) .C3 i k 0
        (by rw [put_rows, put_rows, (hd .C3).1]; omega)
        (by rw [put_cols, put_cols, (hd .C3).2]; omega)
      have e4 := store_ok (put (put (put s1 .C1 i k 0) .C2 i k 0) .C3 i k 0) .C4 i k 0
        (by rw [put_rows, put_rows, put_rows, (hd .C4).1]; omega)
        (by rw [put_cols, put_cols, put_cols, (hd .C4).2]; omega)
      refine ⟨put (put (put (put s1 .C1 i k 0) .C2 i k 0) .C3 i k 0) .C4 i k 0, ?_, ?_, ?_, ?_⟩
      · simp [initC, e1, e2, e3, e4, andThen_ok]
      · intro b
        rw [put_rows, put_cols, put_rows, put_cols, put_rows, put_cols, put_rows, put_cols]
        exact hd b
      · intro b hb
        have n1 : b ≠ Buf.C1 := by rcases hb with rfl | rfl | rfl <;> decide
        have n2 : b ≠ Buf.C2 := by rcases hb with rfl | rfl | rfl <;> decide
        have n3 : b ≠ Buf.C3 := by rcases hb with rfl | rfl | rfl <;> decide
        have n4 : b ≠ Buf.C4 := by rcases hb with rfl | rfl | rfl <;> decide
        rw [put_other _ _ _ _ _ _ n4, put_other _ _ _ _ _ _ n3, put_other _ _ _ _ _ _ n2,
          put_other _ _ _ _ _ _ n1]
        exact hf b hb
      · intro c hc i' k' hk' hlt
        have hold : ¬ (i' = i ∧ k' = k) → (s1 c).data i' k' = 0 := fun hik =>
          hv c hc i' k' hk' (by
            have hne : i' * P + k' ≠ i * P + k := fun he => hik (pair_unique hk hk' he)
            omega)
        rcases hc with rfl | rfl | rfl | rfl
        · rw [put_other _ .C4 _ _ _ .C1 (by decide), put_other _ .C3 _ _ _ .C1 (by decide),
            put_other _ .C2 _ _ _ .C1 (by decide), put_data]
          split_ifs with hik
          · rfl
          · exact hold hik
        · rw [put_other _ .C4 _ _ _ .C2 (by decide), put_other _ .C3 _ _ _ .C2 (by decide),
            put_data, put_other _ .C1 _ _ _ .C2 (by decide)]
          split_ifs with hik
          · rfl
          · exact hold hik
        · rw [put_other _ .C4 _ _ _ .C3 (by decide), put_data,
            put_other _ .C2 _ _ _ .C3 (by decide), put_other _ .C1 _ _ _ .C3 (by decide)]
          split_ifs with hik
          · rfl
          · exact hold hik
        · rw [put_data, put_other _ .C3 _ _ _ .C4 (by decide),
            put_other _ .C2 _ _ _ .C4 (by decide), put_other _ .C1 _ _ _ .C4 (by decide)]
          split_ifs with hik
          · rfl
          · exact hold hik)
  exact ⟨s1, e, hd, hf, fun c hc i k hi hk => hv c hc i k hk (lt_of_tile hi hk)⟩

theorem Allocated.of_sameDims {N M P : Nat} {s s1 : State} (h : Allocated N M P s)
    (h1 : SameDims s s1) : Allocated N M P s1 := by
  intro b
  rw [(h1 b).1, (h1 b).2]
  exact h b

/-- The routine `initialize_matrices` returns whenever its two divisors are non-zero, and
leaves `A` and `B` filled from the rand() results, `Bt` the transpose of `B` and the four
result buffers zero. -/
theorem initialize_result (N M P : Nat) (rand : Nat → Int) (s : State)
    (h : Allocated N M P s) (hA : ModulusOk N M) (hB : ModulusOk M P) :
    ∃ s1, initialize_matrices N M P rand s = .ok s1 ∧ Allocated N M P s1 ∧
      (∀ i j, i < N → j < M → (s1 .A).data i j = entryOf N M (rand (i * M + j))) ∧
      (∀ j k, j < M → k < P →
        (s1 .B).data j k = entryOf M P (rand (N * M + (j * P + k)))) ∧
      Transposed M P s1 ∧ ZeroResults N P s1 := by
  obtain ⟨sa, ea, da, fa, va⟩ := initA_loop N M P rand s h hA
  have ha := h.of_sameDims da
  obtain ⟨sb, eb, db, fb, vb⟩ := initB_loop N M P rand sa (N * M) ha hB
  have hb := ha.of_sameDims db
  obtain ⟨sc, ec, dc, fc, vc⟩ := initC_loop N M P sb hb
  refine ⟨sc, ?_, hb.of_sameDims dc, ?_, ?_, ?_, vc⟩
  · simp only [initialize_matrices, ea, andThen_ok, eb, ec]
  · intro i j hi hj
    rw [fc .A (Or.inl rfl), fb .A (by decide) (by decide)]
    exact va i j hi hj
  · intro j k hj hk
    rw [fc .B (Or.inr (Or.inl rfl))]
    exact (vb j k hj hk).1
  · intro j k hj hk
    rw [fc .B (Or.inr (Or.inl rfl)), fc .Bt (Or.inr (Or.inr rfl))]
    exact (vb j k hj hk).2

theorem allocate_allocated (N M P : Nat) (junk : Buf → Nat → Nat → Int) :
    Allocated N M P (allocate_matrix_buffers N M P junk) := by
  intro b; cases b <;> exact ⟨rfl, rfl⟩

/-! ## Out-of-bounds runs -/

theorem Adds.runs {tgt : Buf} {s0 : State} {prog : State → Except Fault State}
    {d : Nat → Nat → Int} (h : Adds tgt s0 prog d) : Runs tgt s0 prog := by
  intro s1 h1
  obtain ⟨s2, e, hacc⟩ := h s1 h1
  exact ⟨s2, e, h1.trans hacc.1⟩

theorem runs_mulAcc (tgt : Buf) (s0 : State) (a b : Nat) (x : Buf) (xi xj : Nat) (y : Buf)
    (yi yj : Nat) (hx : x ≠ tgt) (hy : y ≠ tgt)
    (ha : a < (s0 tgt).rows) (hb : b < (s0 tgt).cols)
    (hxi : xi < (s0 x).rows) (hxj : xj < (s0 x).cols)
    (hyi : yi < (s0 y).rows) (hyj : yj < (s0 y).cols) :
    Runs tgt s0 (mulAcc tgt a b x xi xj y yi yj) :=
  (adds_mulAcc tgt s0 a b x xi xj y yi yj hx hy ha hb hxi hxj hyi hyj).runs

/-- The multiply-accumulate statement faults when one of its three accesses is out of
bounds. -/
theorem faults_mulAcc (tgt : Buf) (s0 : State) (a b : Nat) (x : Buf) (xi xj : Nat) (y : Buf)
    (yi yj : Nat) (hx : x ≠ tgt) (hy : y ≠ tgt)
    (hbad : ¬ (a < (s0 tgt).rows ∧ b < (s0 tgt).cols) ∨ ¬ (xi < (s0 x).rows ∧ xj < (s0 x).cols) ∨
      ¬ (yi < (s0 y).rows ∧ yj < (s0 y).cols)) :
    Faults tgt s0 (mulAcc tgt a b x xi xj y yi yj) .outOfBounds := by
  intro s1 h1
  have ex : s1 x = s0 x := h1.1 x hx
  have ey : s1 y = s0 y := h1.1 y hy
  unfold mulAcc
  rcases hbad with hb | hb | hb
  · have l1 : load s1 tgt a b = .error .outOfBounds := by
      simp only [load, h1.2.1, h1.2.2, hb, if_false]
    rw [l1]
  · have l2 : load s1 x xi xj = .error .outOfBounds := by
      simp only [load, ex, hb, if_false]
    rw [l2]
    cases load s1 tgt a b <;> rfl
  · have l3 : load s1 y yi yj = .error .outOfBounds := by
      simp only [load, ey, hb, if_false]
    rw [l3]
    cases load s1 tgt a b <;> cases load s1 x xi xj <;> rfl

theorem runs_forLoop (tgt : Buf) (s0 : State) (hi step cnt fuel lo : Nat)
    (body : Nat → State → Except Fault State)
    (hbody : ∀ t, t < cnt → Runs tgt s0 (body (lo + t * step)))
    (hin : ∀ t, t < cnt → lo + t * step < hi) (hout : hi ≤ lo + cnt * step)
    (hfuel : cnt ≤ fuel) : Runs tgt s0 (forLoop hi step body fuel lo) := by
  intro s1 h1
  exact forLoop_ok hi step body cnt (fun _ s' => SameBut tgt s0 s') fuel lo s1 h1
    (fun t s' ht hI => hbody t ht s' hI) hin hout hfuel

theorem runs_forUp (tgt : Buf) (s0 : State) (lo hi cnt : Nat)
    (body : Nat → State → Except Fault State) (hcnt : hi = lo + cnt)
    (hbody : ∀ t, t < cnt → Runs tgt s0 (body (lo + t))) : Runs tgt s0 (forUp lo hi body) := by
  unfold forUp
  refine runs_forLoop tgt s0 hi 1 cnt (hi - lo) lo body ?_ ?_ ?_ ?_
  · intro t ht; simpa using hbody t ht
  · intro t ht; omega
  · omega
  · omega

theorem faults_forLoop (tgt : Buf) (s0 : State) (hi step cnt fuel lo : Nat)
    (body : Nat → State → Except Fault State) (e : Fault)
    (hbody : ∀ t, t < cnt → Runs tgt s0 (body (lo + t * step)))
    (hbad : Faults tgt s0 (body (lo + cnt * step)) e)
    (hin : ∀ t, t ≤ cnt → lo + t * step < hi) (hfuel : cnt < fuel) :
    Faults tgt s0 (forLoop hi step body fuel lo) e := by
  intro s1 h1
  exact forLoop_fault hi step body e cnt (fun _ s' => SameBut tgt s0 s') fuel lo s1 h1
    (fun t s' ht hI => hbody t ht s' hI) hin (fun s' hI => hbad s' hI) hfuel

theorem faults_forUp (tgt : Buf) (s0 : State) (lo hi cnt : Nat)
    (body : Nat → State → Except Fault State) (e : Fault) (hcnt : lo + cnt < hi)
    (hbody : ∀ t, t < cnt → Runs tgt s0 (body (lo + t)))
    (hbad : Faults tgt s0 (body (lo + cnt)) e) : Faults tgt s0 (forUp lo hi body) e := by
  unfold forUp
  refine faults_forLoop tgt s0 hi 1 cnt (hi - lo) lo body e ?_ ?_ ?_ ?_
  · intro t ht; simpa using hbody t ht
  · simpa using hbad
  · intro t ht; omega
  · omega

theorem faults_forStep (tgt : Buf) (s0 : State) (hi T cnt : Nat)
    (body : Nat → State → Except Fault State) (e : Fault) (hT : 0 < T) (hlt : cnt * T < hi)
    (hbody : ∀ t, t < cnt → Runs tgt s0 (body (t * T)))
    (hbad : Faults tgt s0 (body (cnt * T)) e) : Faults tgt s0 (forStep hi T body) e := by
  unfold forStep
  have hle : cnt ≤ cnt * T := Nat.le_mul_of_pos_right cnt hT
  refine faults_forLoop tgt s0 hi T cnt hi 0 body e ?_ ?_ ?_ ?_
  · intro t ht; simpa using hbody t ht
  · simpa using hbad
  · intro t ht
    have : t * T ≤ cnt * T := Nat.mul_le_mul_right T ht
    omega
  · omega

/-- The tiled kernel reads `A[0][M]` in its first row of tiles when a tile of the `k0` loop
(which runs up to `P`) starts at or below `M` and ends beyond it. -/
theorem tiled_faults_k (N M P T cnt : Nat) (s0 : State) (h : Allocated N M P s0) (hT : 0 < T)
    (hN : 0 < N) (hM0 : 0 < M) (hP0 : 0 < P) (hfull : 0 < cnt → T ≤ N ∧ T ≤ P)
    (hlo : cnt * T ≤ M) (hhi : M < cnt * T + T) (hP : cnt * T < P) :
    Faults .C3 s0 (tiledKernel N M P T) .outOfBounds := by
  have hA := h .A; have hB := h .Bt; have hC := h .C3
  simp only [allocate_matrix_buffers] at hA hB hC
  unfold tiledKernel tiledNest
  refine faults_forStep .C3 s0 N T 0 _ _ hT (by omega)
    (fun t ht => absurd ht (Nat.not_lt_zero _)) ?_
  refine faults_forStep .C3 s0 M T 0 _ _ hT (by omega)
    (fun t ht => absurd ht (Nat.not_lt_zero _)) ?_
  refine faults_forStep .C3 s0 P T cnt _ _ hT hP ?_ ?_
  · intro t ht
    obtain ⟨h1, h2⟩ := hfull (by omega)
    have h3 : t * T + T ≤ cnt * T := by
      have := Nat.mul_le_mul_right T (Nat.succ_le_of_lt ht)
      rwa [Nat.succ_mul] at this
    refine runs_forUp .C3 s0 (0 * T) (0 * T + T) T _ rfl (fun u hu => ?_)
    refine runs_forUp .C3 s0 (0 * T) (0 * T + T) T _ rfl (fun v hv => ?_)
    refine runs_forUp .C3 s0 (t * T) (t * T + T) T _ rfl (fun w hw => ?_)
    exact runs_mulAcc .C3 s0 (0 * T + u) (0 * T + v) .A (0 * T + u) (t * T + w) .Bt
      (0 * T + v) (t * T + w) (by decide) (by decide)
      (by omega) (by omega) (by omega) (by omega) (by omega) (by omega)
  · refine faults_forUp .C3 s0 (0 * T) (0 * T + T) 0 _ _ (by omega)
      (fun t ht => absurd ht (Nat.not_lt_zero _)) ?_
    refine faults_forUp .C3 s0 (0 * T) (0 * T + T) 0 _ _ (by omega)
      (fun t ht => absurd ht (Nat.not_lt_zero _)) ?_
    refine faults_forUp .C3 s0 (cnt * T) (cnt * T + T) (M - cnt * T) _ _ (by omega) ?_ ?_
    · intro w hw
      exact runs_mulAcc .C3 s0 (0 * T + 0) (0 * T + 0) .A (0 * T + 0) (cnt * T + w) .Bt
        (0 * T + 0) (cnt * T + w) (by decide) (by decide)
        (by omega) (by omega) (by omega) (by omega) (by omega) (by omega)
    · exact faults_mulAcc .C3 s0 (0 * T + 0) (0 * T + 0) .A (0 * T + 0)
        (cnt * T + (M - cnt * T)) .Bt (0 * T + 0) (cnt * T + (M - cnt * T))
        (by decide) (by decide) (Or.inr (Or.inl (by omega)))

/-- The flat tiled kernel writes `C4[0][P]` in its first row of tiles when a tile of the `j0`
loop (which runs up to `M`) starts at or below `P` and ends beyond it. -/
theorem flatTiled_faults_j (N M P T cnt : Nat) (s0 : State) (h : Allocated N M P s0)
    (hT : 0 < T) (hN : 0 < N) (hfull : 0 < cnt → T ≤ N)
    (hlo : cnt * T ≤ P) (hhi : P < cnt * T + T) (hM : cnt * T < M) :
    Faults .C4 s0 (flatTiledKernel N M T) .outOfBounds := by
  have hA := h .A; have hB := h .Bt; have hC := h .C4
  simp only [allocate_matrix_buffers] at hA hB hC
  unfold flatTiledKernel flatTiledNest
  refine faults_forStep .C4 s0 N T 0 _ _ hT (by omega)
    (fun t ht => absurd ht (Nat.not_lt_zero _)) ?_
  refine faults_forStep .C4 s0 M T cnt _ _ hT hM ?_ ?_
  · intro t ht
    have h1 := hfull (by omega)
    have h3 : t * T + T ≤ cnt * T := by
      have := Nat.mul_le_mul_right T (Nat.succ_le_of_lt ht)
      rwa [Nat.succ_mul] at this
    refine runs_forUp .C4 s0 (0 * T) (0 * T + T) T _ rfl (fun u hu => ?_)
    refine runs_forUp .C4 s0 (t * T) (t * T + T) T _ rfl (fun v hv => ?_)
    refine runs_forUp .C4 s0 0 M M _ (by omega) (fun w hw => ?_)
    exact runs_mulAcc .C4 s0 (0 * T + u) (t * T + v) .A (0 * T + u) (0 + w) .Bt
      (t * T + v) (0 + w) (by decide) (by decide)
      (by omega) (by omega) (by omega) (by omega) (by omega) (by omega)
  · refine faults_forUp .C4 s0 (0 * T) (0 * T + T) 0 _ _ (by omega)
      (fun t ht => absurd ht (Nat.not_lt_zero _)) ?_
    refine faults_forUp .C4 s0 (cnt * T) (cnt * T + T) (P - cnt * T) _ _ (by omega) ?_ ?_
    · intro v hv
      refine runs_forUp .C4 s0 0 M M _ (by omega) (fun w hw => ?_)
      exact runs_mulAcc .C4 s0 (0 * T + 0) (cnt * T + v) .A (0 * T + 0) (0 + w) .Bt
        (cnt * T + v) (0 + w) (by decide) (by decide)
        (by omega) (by omega) (by omega) (by omega) (by omega) (by omega)
    · refine faults_forUp .C4 s0 0 M 0 _ _ (by omega)
        (fun t ht => absurd ht (Nat.not_lt_zero _)) ?_
      exact faults_mulAcc .C4 s0 (0 * T + 0) (cnt * T + (P - cnt * T)) .A (0 * T + 0)
        (0 + 0) .Bt (cnt * T + (P - cnt * T)) (0 + 0)
        (by decide) (by decide) (Or.inl (by omega))

/-! ## Frame: what a returning loop nest can have changed -/

/-- A relation that holds across every returning body execution, and is reflexive and
transitive, holds across every returning loop. -/
theorem forLoop_frame {σ : Type} (R : σ → σ → Prop) (hrefl : ∀ s, R s s)
    (htrans : ∀ a b c, R a b → R b c → R a c) (hi step : Nat)
    (body : Nat → σ → Except Fault σ) (hbody : ∀ i s s1, body i s = .ok s1 → R s s1) :
    ∀ (fuel i : Nat) (s s1 : σ), forLoop hi step body fuel i s = .ok s1 → R s s1 := by
  intro fuel
  induction fuel with
  | zero =>
    intro i s s1 h
    by_cases hlt : i < hi
    · simp [forLoop, hlt] at h
    · simp only [forLoop, hlt, if_false, Except.ok.injEq] at h
      rw [← h]; exact hrefl s
  | succ f ih =>
    intro i s s1 h
    by_cases hlt : i < hi
    · cases hb : body i s with
      | error e => simp [forLoop, hlt, hb] at h
      | ok s2 =>
        simp only [forLoop, hlt, if_true, hb] at h
        exact htrans _ _ _ (hbody i s s2 hb) (ih (i + step) s2 s1 h)
    · simp only [forLoop, hlt, if_false, Except.ok.injEq] at h
      rw [← h]; exact hrefl s

theorem mulAcc_frame (tgt : Buf) (a b : Nat) (x : Buf) (xi xj : Nat) (y : Buf) (yi yj : Nat)
    (s s1 : State) (h : mulAcc tgt a b x xi xj y yi yj s = .ok s1) : SameBut tgt s s1 := by
  unfold mulAcc at h
  cases h1 : load s tgt a b with
  | error e => simp [h1] at h
  | ok c =>
    cases h2 : load s x xi xj with
    | error e => simp [h1, h2] at h
    | ok u =>
      cases h3 : load s y yi yj with
      | error e => simp [h1, h2, h3] at h
      | ok v =>
        simp only [h1, h2, h3] at h
        by_cases hin : a < (s tgt).rows ∧ b < (s tgt).cols
        · rw [store_ok s tgt a b _ hin.1 hin.2] at h
          simp only [Except.ok.injEq] at h
          rw [← h]
          exact ⟨fun z hz => put_other _ _ _ _ _ _ hz, put_rows _ _ _ _ _ _, put_cols _ _ _ _ _ _⟩
        · simp [store, hin] at h

/-- Each kernel loop nest, whenever it returns, has changed at most its own result buffer. -/
theorem kernel_frames (N M P T : Nat) (s s1 : State) :
    (naiveKernel N M P s = .ok s1 → SameBut .C1 s s1) ∧
    (transposedKernel N M P s = .ok s1 → SameBut .C2 s s1) ∧
    (tiledKernel N M P T s = .ok s1 → SameBut .C3 s s1) ∧
    (flatTiledKernel N M T s = .ok s1 → SameBut .C4 s s1) := by
  have lift : ∀ (tgt : Buf) (hi step : Nat) (body : Nat → State → Except Fault State),
      (∀ i s s1, body i s = .ok s1 → SameBut tgt s s1) →
      ∀ (fuel i : Nat) (s s1 : State), forLoop hi step body fuel i s = .ok s1 → SameBut tgt s s1 :=
    fun tgt hi step body hb =>
      forLoop_frame (SameBut tgt) (SameBut.refl tgt) (fun _ _ _ h1 h2 => h1.trans h2) hi step
        body hb
  refine ⟨?_, ?_, ?_, ?_⟩
  · exact lift .C1 N 1 _ (fun i s s1 => lift .C1 P 1 _ (fun k s s1 => lift .C1 M 1 _
      (fun j s s1 => mulAcc_frame .C1 i k .A i j .B j k s s1) _ _ s s1) _ _ s s1) _ _ s s1
  · exact lift .C2 N 1 _ (fun i s s1 => lift .C2 P 1 _ (fun k s s1 => lift .C2 M 1 _
      (fun j s s1 => mulAcc_frame .C2 i k .A i j .Bt k j s s1) _ _ s s1) _ _ s s1) _ _ s s1
  · exact lift .C3 N T _ (fun i0 s s1 => lift .C3 M T _ (fun j0 s s1 => lift .C3 P T _
      (fun k0 s s1 => lift .C3 (i0 + T) 1 _ (fun i1 s s1 => lift .C3 (j0 + T) 1 _
        (fun j1 s s1 => lift .C3 (k0 + T) 1 _
          (fun k1 s s1 => mulAcc_frame .C3 i1 j1 .A i1 k1 .Bt j1 k1 s s1)
          _ _ s s1) _ _ s s1) _ _ s s1) _ _ s s1) _ _ s s1) _ _ s s1
  · exact lift .C4 N T _ (fun i0 s s1 => lift .C4 M T _ (fun j0 s s1 =>
      lift .C4 (i0 + T) 1 _ (fun i1 s s1 => lift .C4 (j0 + T) 1 _
        (fun j1 s s1 => lift .C4 M 1 _
          (fun k1 s s1 => mulAcc_frame .C4 i1 j1 .A i1 k1 .Bt j1 k1 s s1)
          _ _ s s1) _ _ s s1) _ _ s s1) _ _ s s1) _ _ s s1

theorem atStage_ok_iff {α : Type} (n : Nat) (r : Except Fault α) (a : α) :
    atStage n r = .ok a ↔ r = .ok a := by
  cases r <;> simp [atStage]

theorem andThen_eq_ok {ε α β : Type} (r : Except ε α) (k : α → Except ε β) (b : β) :
    andThen r k = .ok b ↔ ∃ a, r = .ok a ∧ k a = .ok b := by
  cases r <;> simp [andThen]

/-- The four kernels in sequence, whenever they all return, have left `A`, `B` and `Bt`
as they were. -/
theorem kernels_frame (N M P T : Nat) (s s4 : State) (h : kernels N M P T s = .ok s4) :
    s4 .A = s .A ∧ s4 .B = s .B ∧ s4 .Bt = s .Bt := by
  unfold kernels at h
  simp only [andThen_eq_ok, atStage_ok_iff] at h
  obtain ⟨s1, h1, s2, h2, s3, h3, h4⟩ := h
  have f1 := (kernel_frames N M P T s s1).1 h1
  have f2 := (kernel_frames N M P T s1 s2).2.1 h2
  have f3 := (kernel_frames N M P T s2 s3).2.2.1 h3
  have f4 := (kernel_frames N M P T s3 s4).2.2.2 h4
  refine ⟨?_, ?_, ?_⟩
  · rw [f4.1 .A (by decide), f3.1 .A (by decide), f2.1 .A (by decide), f1.1 .A (by decide)]
  · rw [f4.1 .B (by decide), f3.1 .B (by decide), f2.1 .B (by decide), f1.1 .B (by decide)]
  · rw [f4.1 .Bt (by decide), f3.1 .Bt (by decide), f2.1 .Bt (by decide),
      f1.1 .Bt (by decide)]

theorem forUp_fault_first {σ : Type} (lo hi : Nat) (body : Nat → σ → Except Fault σ) (s : σ)
    (e : Fault) (hlt : lo < hi) (hb : body lo s = .error e) :
    forUp lo hi body s = .error e := by
  unfold forUp
  obtain ⟨f, hf⟩ : ∃ f, hi - lo = f + 1 := ⟨hi - lo - 1, by omega⟩
  rw [hf]
  simp [forLoop, hlt, hb]

theorem randomEntry_zero (X Y : Nat) (r : Int) (h : wrap32 ((X : Int) * (Y : Int)) = 0) :
    randomEntry X Y r = .error .divByZero := by
  simp [randomEntry, h]

/-- When a divisor `N * M` or `M * P` is zero in `int` arithmetic and its loop nest is not
empty, `initialize_matrices` stops with a division by zero. -/
theorem initialize_divByZero (N M P : Nat) (rand : Nat → Int) (s : State)
    (h : Allocated N M P s) (hbad : ¬ (ModulusOk N M ∧ ModulusOk M P)) :
    initialize_matrices N M P rand s = .error .divByZero := by
  by_cases hA : ModulusOk N M
  · have hB : ¬ ModulusOk M P := fun hB => hbad ⟨hA, hB⟩
    unfold ModulusOk at hB
    push_neg at hB
    obtain ⟨hM, hP, hz⟩ := hB
    obtain ⟨sa, ea, _, _, _⟩ := initA_loop N M P rand s h hA
    have eb : forUp 0 M (fun j => forUp 0 P (fun k => initB M P rand j k)) (sa, N * M)
        = .error .divByZero :=
      forUp_fault_first 0 M _ _ _ hM (forUp_fault_first 0 P _ _ _ hP (by
        simp only [initB, randomEntry_zero M P _ hz, andThen_error]))
    simp only [initialize_matrices, ea, andThen_ok, eb, andThen_error]
  · unfold ModulusOk at hA
    push_neg at hA
    obtain ⟨hN, hM, hz⟩ := hA
    have ea : forUp 0 N (fun i => forUp 0 M (fun j => initA N M rand i j)) (s, 0)
        = .error .divByZero :=
      forUp_fault_first 0 N _ _ _ hN (forUp_fault_first 0 M _ _ _ hM (by
        simp only [initA, randomEntry_zero N M _ hz, andThen_error]))
    simp only [initialize_matrices, ea, andThen_error]

/-- Whenever `initialize_matrices` returns, both divisors were non-zero where used. -/
theorem modulusOk_of_initialize (N M P : Nat) (rand : Nat → Int) (s s1 : State)
    (h : Allocated N M P s) (he : initialize_matrices N M P rand s = .ok s1) :
    ModulusOk N M ∧ ModulusOk M P := by
  by_contra hbad
  rw [initialize_divByZero N M P rand s h hbad] at he
  exact Except.noConfusion he

/-! ## Runs of `main` with a tile size that does not divide the dimensions -/

theorem tile_bounds (n T : Nat) (hT : 0 < T) (hd : ¬ T ∣ n) :
    n / T * T ≤ n ∧ n < n / T * T + T ∧ n / T * T < n ∧ (0 < n / T → T ≤ n) := by
  have h1 : n / T * T ≤ n := Nat.div_mul_le_self n T
  have h2 : n < n / T * T + T := by
    have := Nat.lt_succ_iff.mpr (Nat.le_refl (n / T))
    have h3 := (Nat.div_lt_iff_lt_mul hT).mp this
    rwa [Nat.succ_mul] at h3
  have h4 : n / T * T ≠ n := fun he => hd ⟨n / T, by rw [Nat.mul_comm]; exact he.symm⟩
  refine ⟨h1, h2, by omega, fun hq => ?_⟩
  have : T ≤ n / T * T := Nat.le_mul_of_pos_left T hq
  omega

/-- With square dimensions `n > 0` and a tile size `T > 0` that does not divide `n`, the
tiled kernel faults with an out-of-bounds access from every allocated state. -/
theorem tiled_nondividing (n T : Nat) (s : State) (hn : 0 < n) (hT : 0 < T) (hd : ¬ T ∣ n)
    (h : Allocated n n n s) : tiledKernel n n n T s = .error .outOfBounds := by
  obtain ⟨h1, h2, h3, h4⟩ := tile_bounds n T hT hd
  exact tiled_faults_k n n n T (n / T) s h hT hn hn hn (fun hq => ⟨h4 hq, h4 hq⟩) h1 h2 h3 s
    (SameBut.refl _ _)

/-- With square dimensions `n > 0` and a tile size `T > 0` that does not divide `n`, the
flat tiled kernel faults with an out-of-bounds access from every allocated state. -/
theorem flatTiled_nondividing (n T : Nat) (s : State) (hn : 0 < n) (hT : 0 < T)
    (hd : ¬ T ∣ n) (h : Allocated n n n s) :
    flatTiledKernel n n T s = .error .outOfBounds := by
  obtain ⟨h1, h2, h3, h4⟩ := tile_bounds n T hT hd
  exact flatTiled_faults_j n n n T (n / T) s h hT hn h4 h1 h2 h3 s (SameBut.refl _ _)

/-- A run of `main` with square dimensions and a non-dividing tile size: start-up and the
first two kernels complete, the tiled kernel faults, and that fault is the outcome. -/
theorem main_nondividing (n T : Nat) (junk : Buf → Nat → Nat → Int) (rand : Nat → Int)
    (hn : 0 < n) (hT : 0 < T) (hd : ¬ T ∣ n) (hm : ModulusOk n n) :
    main n n n T junk rand = .error (3, .outOfBounds) ∧
    ∃ s0 s1 s2,
      initialize_matrices n n n rand (allocate_matrix_buffers n n n junk) = .ok s0 ∧
      naiveKernel n n n s0 = .ok s1 ∧ transposedKernel n n n s1 = .ok s2 ∧
      tiledKernel n n n T s2 = .error .outOfBounds := by
  obtain ⟨s0, e0, a0, _, _, htr, _⟩ :=
    initialize_result n n n rand _ (allocate_allocated n n n junk) hm hm
  obtain ⟨s1, e1, f1, _⟩ := naive_result n n n s0 a0
  have a1 := a0.of_sameBut f1
  obtain ⟨s2, e2, f2, _⟩ := transposed_result n n n s1 a1 (htr.frame f1 (by decide) (by decide))
  have e3 := tiled_nondividing n T s2 hn hT hd (a1.of_sameBut f2)
  refine ⟨?_, s0, s1, s2, e0, e1, e2, e3⟩
  simp only [main, e0, atStage, andThen_ok, kernels, e1, e2, e3, andThen_error]

/-- The exact inner product of non-negative entries is non-negative. -/
theorem dot_nonneg (M : Nat) (X Y : Nat → Nat → Int) (a b : Nat)
    (hX : ∀ j, j < M → 0 ≤ X a j) (hY : ∀ j, j < M → 0 ≤ Y j b) : 0 ≤ dot M X Y a b := by
  unfold dot
  exact Finset.sum_nonneg (fun j hj =>
    mul_nonneg (hX j (Finset.mem_range.mp hj)) (hY j (Finset.mem_range.mp hj)))

/-! ## The verifier as a checking loop -/

/-- A unit-step loop whose body, run on `s`, either returns `s` unchanged or faults: the loop
returns only with `s` unchanged after every body execution returned, and its faults are
faults of a body execution. -/
theorem forUp_check {σ : Type} (lo hi : Nat) (body : Nat → σ → Except Fault σ) (s : σ)
    (Q : Nat → Prop) (E : Fault → Prop)
    (hok : ∀ i s1, lo ≤ i → i < hi → body i s = .ok s1 → s1 = s ∧ Q i)
    (herr : ∀ i e, lo ≤ i → i < hi → body i s = .error e → E e) :
    (∀ s1, forUp lo hi body s = .ok s1 → s1 = s ∧ ∀ i, lo ≤ i → i < hi → Q i) ∧
    (∀ e, forUp lo hi body s = .error e → E e) := by
  have key : ∀ (fuel i : Nat), lo ≤ i → hi - i ≤ fuel →
      (∀ s1, forLoop hi 1 body fuel i s = .ok s1 → s1 = s ∧ ∀ j, i ≤ j → j < hi → Q j) ∧
      (∀ e, forLoop hi 1 body fuel i s = .error e → E e) := by
    intro fuel
    induction fuel with
    | zero =>
      intro i _ hf
      have hge : ¬ i < hi := by omega
      simp only [forLoop, hge, if_false, Except.ok.injEq]
      exact ⟨fun s1 h1 => ⟨h1.symm, fun j h2 h3 => absurd h3 (by omega)⟩,
        fun e he => Except.noConfusion he⟩
    | succ f ih =>
      intro i hlo hf
      by_cases hlt : i < hi
      · cases hb : body i s with
        | error e0 =>
          simp only [forLoop, hlt, if_true, hb]
          refine ⟨fun s1 h1 => Except.noConfusion h1, fun e he => ?_⟩
          have : e0 = e := Except.error.inj he
          rw [← this]
          exact herr i e0 hlo hlt hb
        | ok s2 =>
          obtain ⟨e2, hq⟩ := hok i s2 hlo hlt hb
          subst e2
          simp only [forLoop, hlt, if_true, hb]
          obtain ⟨r1, r2⟩ := ih (i + 1) (by omega) (by omega)
          refine ⟨fun s1 h1 => ?_, r2⟩
          obtain ⟨e1, hq1⟩ := r1 s1 h1
          refine ⟨e1, fun j h2 h3 => ?_⟩
          by_cases hj : j = i
          · rw [hj]; exact hq
          · exact hq1 j (by omega) h3
      · simp only [forLoop, hlt, if_false, Except.ok.injEq]
        exact ⟨fun s1 h1 => ⟨h1.symm, fun j h2 h3 => absurd h3 (by omega)⟩,
          fun e he => Except.noConfusion he⟩
  unfold forUp
  exact key (hi - lo) lo (Nat.le_refl _) (Nat.le_refl _)

/-- The three asserts at an index inside allocated result buffers. -/
theorem verifyAt_eq (N M P : Nat) (s : State) (h : Allocated N M P s) (i k : Nat) (hi : i < N)
    (hk : k < P) :
    verifyAt i k s =
      if (s .C1).data i k = (s .C2).data i k ∧ (s .C2).data i k = (s .C3).data i k ∧
          (s .C3).data i k = (s .C4).data i k then .ok s
      else .error (.assertFailed i k) := by
  have h1 := h .C1; have h2 := h .C2; have h3 := h .C3; have h4 := h .C4
  simp only [allocate_matrix_buffers] at h1 h2 h3 h4
  simp only [verifyAt, load, h1, h2, h3, h4, hi, hk, and_self, if_true]

/-- What `verify_matrix_multiplication` does on allocated buffers. -/
theorem verify_spec (N M P : Nat) (s : State) (h : Allocated N M P s) :
    (∀ s1, verify_matrix_multiplication N P s = .ok s1 → s1 = s ∧
      ∀ i, 0 ≤ i → i < N → ∀ k, 0 ≤ k → k < P →
        (s .C1).data i k = (s .C2).data i k ∧ (s .C2).data i k = (s .C3).data i k ∧
          (s .C3).data i k = (s .C4).data i k) ∧
    (∀ e, verify_matrix_multiplication N P s = .error e →
      ∃ i k, i < N ∧ k < P ∧ e = .assertFailed i k) := by
  unfold verify_matrix_multiplication
  refine forUp_check 0 N _ s _ (fun e => ∃ i k, i < N ∧ k < P ∧ e = Fault.assertFailed i k)
    (fun i s1 _ hi hb => ?_) (fun i e _ hi hb => ?_)
  · exact (forUp_check 0 P (fun k => verifyAt i k) s
      (fun k => (s .C1).data i k = (s .C2).data i k ∧ (s .C2).data i k = (s .C3).data i k ∧
          (s .C3).data i k = (s .C4).data i k) (fun _ => True)
      (fun k s2 _ hk hv => by
        simp only [verifyAt_eq N M P s h i k hi hk] at hv
        split_ifs at hv with hc
        · exact ⟨(Except.ok.inj hv).symm, hc⟩)
      (fun _ _ _ _ _ => trivial)).1 s1 hb
  · exact (forUp_check 0 P (fun k => verifyAt i k) s (fun _ => True)
      (fun e => ∃ i k, i < N ∧ k < P ∧ e = Fault.assertFailed i k)
      (fun k s2 _ hk hv => by
        simp only [verifyAt_eq N M P s h i k hi hk] at hv
        split_ifs at hv with hc
        · exact ⟨(Except.ok.inj hv).symm, trivial⟩)
      (fun k e0 _ hk hv => by
        simp only [verifyAt_eq N M P s h i k hi hk] at hv
        split_ifs at hv with hc
        · exact ⟨i, k, hi, hk, (Except.error.inj hv).symm⟩)).2 e hb

/-! ## Range of the initial values -/

theorem wrap32_natMul (X Y : Nat) (h : X * Y < 2147483648) :
    wrap32 ((X : Int) * (Y : Int)) = ((X * Y : Nat) : Int) := by
  rw [← Nat.cast_mul]
  exact wrap32_of_inRange ⟨by omega, by omega⟩

theorem modulusOk_of_lt (X Y : Nat) (h : X * Y < 2147483648) : ModulusOk X Y := by
  intro hX hY
  rw [wrap32_natMul X Y h]
  have : 0 < X * Y := Nat.mul_pos hX hY
  omega

/-- The value `rand() % (X * Y) + 1` lies in `[1, X * Y]` for a non-negative rand() result
when `X * Y` is positive and fits an `int`. -/
theorem entryOf_range (X Y : Nat) (r : Int) (hpos : 0 < X * Y) (h : X * Y < 2147483648)
    (hr : 0 ≤ r) : 1 ≤ entryOf X Y r ∧ entryOf X Y r ≤ ((X * Y : Nat) : Int) := by
  unfold entryOf
  rw [wrap32_natMul X Y h]
  have h1 : 0 ≤ Int.tmod r ((X * Y : Nat) : Int) := Int.tmod_nonneg _ hr
  have h2 : Int.tmod r ((X * Y : Nat) : Int) < ((X * Y : Nat) : Int) :=
    Int.tmod_lt_of_pos r (by omega)
  rw [wrap32_of_inRange ⟨by omega, by omega⟩]
  omega

theorem dot_zero_left (M : Nat) (X Y : Nat → Nat → Int) (a b : Nat)
    (h : ∀ j, j < M → X a j = 0) : dot M X Y a b = 0 := by
  unfold dot
  exact Finset.sum_eq_zero (fun j hj => by rw [h j (Finset.mem_range.mp hj), zero_mul])

theorem dot_zero_right (M : Nat) (X Y : Nat → Nat → Int) (a b : Nat)
    (h : ∀ j, j < M → Y j b = 0) : dot M X Y a b = 0 := by
  unfold dot
  exact Finset.sum_eq_zero (fun j hj => by rw [h j (Finset.mem_range.mp hj), mul_zero])

theorem dot_identity (n : Nat) (X Y : Nat → Nat → Int) (a b : Nat) (ha : a < n)
    (h : ∀ j, j < n → X a j = if a = j then 1 else 0) : dot n X Y a b = Y a b := by
  unfold dot
  rw [Finset.sum_congr rfl (fun j hj => by rw [h j (Finset.mem_range.mp hj)])]
  simp [ite_mul, Finset.sum_ite_eq, ha]

/-! ## Accumulation into a non-zero buffer -/

theorem wrap32_add_eq_iff (c d : Int) (hc : InRange c) : wrap32 (c + d) = wrap32 d ↔ c = 0 := by
  unfold InRange at hc
  unfold wrap32
  omega

theorem accumulates_of_adds (n : Nat) (tgt : Buf) (prog : State → Except Fault State)
    (s : State) (d : Nat → Nat → Int) (hadd : Adds tgt s prog d)
    (hd : ∀ i k, i < n → k < n → d i k = dot n (s .A).data (s .B).data i k)
    (hr : ∀ i k, i < n → k < n → InRange ((s tgt).data i k)) :
    AccumulatesProduct n tgt prog s := by
  obtain ⟨s1, e1, a1⟩ := hadd s (SameBut.refl _ _)
  obtain ⟨s2, e2, a2⟩ := hadd s1 a1.1
  have a12 := a1.add a2
  refine ⟨s1, s2, e1, e2, fun i k hi hk => ?_⟩
  have v1 := a1.value i k (hr i k hi hk)
  have v2 := a12.value i k (hr i k hi hk)
  simp only [hd i k hi hk] at v1 v2
  refine ⟨v1, ?_, ?_, ?_⟩
  · rw [v1, matProd_eq]
    exact wrap32_add_eq_iff _ _ (hr i k hi hk)
  · rw [v2, two_mul]
  · intro hz
    rw [v2, hz, zero_add, two_mul]

/-! ## The index triples visited by the tiled nests -/

theorem appends_record (i j k : Nat) :
    Appends (fun l => .ok (l ++ [(i, j, k)]))
      (fun t => if t.1 = i ∧ t.2.1 = j ∧ t.2.2 = k then 1 else 0) := by
  intro l
  refine ⟨l ++ [(i, j, k)], rfl, fun t => ?_⟩
  obtain ⟨a, b, c⟩ := t
  rw [List.count_append, List.count_singleton]
  by_cases h : a = i ∧ b = j ∧ c = k
  · obtain ⟨rfl, rfl, rfl⟩ := h
    simp
  · have hne : ¬ ((i, j, k) = (a, b, c)) := by
      intro he
      simp only [Prod.mk.injEq] at he
      exact h ⟨he.1.symm, he.2.1.symm, he.2.2.symm⟩
    simp [h, hne]

theorem appends_forLoop (hi step cnt fuel lo : Nat)
    (body : Nat → List (Nat × Nat × Nat) → Except Fault (List (Nat × Nat × Nat)))
    (d : Nat → Nat × Nat × Nat → Int)
    (hbody : ∀ u, u < cnt → Appends (body (lo + u * step)) (d u))
    (hin : ∀ u, u < cnt → lo + u * step < hi) (hout : hi ≤ lo + cnt * step)
    (hfuel : cnt ≤ fuel) :
    Appends (forLoop hi step body fuel lo) (fun t => ∑ u in Finset.range cnt, d u t) := by
  intro l
  refine forLoop_ok hi step body cnt
    (fun n l1 => ∀ t, ((l1.count t : Nat) : Int)
      = ((l.count t : Nat) : Int) + ∑ u in Finset.range n, d u t) fuel lo l ?_ ?_ hin hout hfuel
  · intro t; simp
  · intro n l1 hn hI
    obtain ⟨l2, e2, h2⟩ := hbody n hn l1
    refine ⟨l2, e2, fun t => ?_⟩
    rw [h2 t, hI t, Finset.sum_range_succ, add_assoc]

theorem appends_forUp (lo hi cnt : Nat)
    (body : Nat → List (Nat × Nat × Nat) → Except Fault (List (Nat × Nat × Nat)))
    (d : Nat → Nat × Nat × Nat → Int) (hcnt : hi = lo + cnt)
    (hbody : ∀ u, u < cnt → Appends (body (lo + u)) (d u)) :
    Appends (forUp lo hi body) (fun t => ∑ u in Finset.range cnt, d u t) := by
  unfold forUp
  refine appends_forLoop hi 1 cnt (hi - lo) lo body d ?_ ?_ ?_ ?_
  · intro u hu; simpa using hbody u hu
  · intro u hu; omega
  · omega
  · omega

theorem appends_forStep (hi T q : Nat)
    (body : Nat → List (Nat × Nat × Nat) → Except Fault (List (Nat × Nat × Nat)))
    (d : Nat → Nat × Nat × Nat → Int) (hT : 0 < T) (hq : hi = q * T)
    (hbody : ∀ u, u < q → Appends (body (u * T)) (d u)) :
    Appends (forStep hi T body) (fun t => ∑ u in Finset.range q, d u t) := by
  unfold forStep
  refine appends_forLoop hi T q hi 0 body d ?_ ?_ ?_ ?_
  · intro u hu; simpa using hbody u hu
  · intro u hu
    have := lt_of_tile hu hT
    rw [hq, Nat.zero_add]
    omega
  · rw [hq, Nat.zero_add]
  · rw [hq]; exact Nat.le_mul_of_pos_right q hT

theorem sum_pick3 (N M P : Nat) (t : Nat × Nat × Nat) :
    ∑ i in Finset.range N, ∑ j in Finset.range M, ∑ k in Finset.range P,
        (if t.1 = i ∧ t.2.1 = j ∧ t.2.2 = k then (1 : Int) else 0)
      = if t.1 < N ∧ t.2.1 < M ∧ t.2.2 < P then 1 else 0 := by
  obtain ⟨a, b, c⟩ := t
  have inner : ∀ i j, ∑ k in Finset.range P, (if a = i ∧ b = j ∧ c = k then (1 : Int) else 0)
      = if a = i ∧ b = j then (if c < P then 1 else 0) else 0 := by
    intro i j
    by_cases hij : a = i ∧ b = j
    · simp [hij, Finset.sum_ite_eq]
    · have : ∀ k, ¬ (a = i ∧ b = j ∧ c = k) := fun k hk => hij ⟨hk.1, hk.2.1⟩
      simp [hij, this]
  simp only [inner]
  rw [sum_pick N M (fun _ _ => if c < P then (1 : Int) else 0)]
  split_ifs <;> simp_all

theorem exactlyOnce_of_count (N M P : Nat) (l : List (Nat × Nat × Nat))
    (h : ∀ t, ((l.count t : Nat) : Int) = if t.1 < N ∧ t.2.1 < M ∧ t.2.2 < P then 1 else 0) :
    ExactlyOnce N M P l := by
  have hc : ∀ t, l.count t = if t.1 < N ∧ t.2.1 < M ∧ t.2.2 < P then 1 else 0 := by
    intro t
    have := h t
    split_ifs at this ⊢ <;> omega
  have bridge : ∀ t, @List.count _ instBEqOfDecidableEq t l = l.count t := fun t => by
    simp only [List.count]
    refine List.countP_congr (fun x _ => ?_)
    constructor
    · intro hx
      have e : x = t := of_decide_eq_true hx
      rw [e]
      exact beq_self_eq_true t
    · intro hx
      have e : x = t := eq_of_beq hx
      exact decide_eq_true e
  refine ⟨hc, List.nodup_iff_count_le_one.mpr (fun t => ?_), fun t => ?_⟩
  · rw [bridge t, hc t]; split_ifs <;> omega
  · rw [← List.count_pos_iff, hc t]
    split_ifs with hcube
    · simp [hcube]
    · simp [hcube]

/-- The tiled nest visits every triple of `[0,N) x [0,M) x [0,P)` exactly once when `T > 0`
divides the three bounds. -/
theorem tiledVisits_exactlyOnce (N M P T : Nat) (hT : 0 < T) (hN : T ∣ N) (hM : T ∣ M)
    (hP : T ∣ P) : ∃ l, tiledVisits N M P T = .ok l ∧ ExactlyOnce N M P l := by
  obtain ⟨qN, hqN⟩ := hN
  obtain ⟨qM, hqM⟩ := hM
  obtain ⟨qP, hqP⟩ := hP
  have eN : N = qN * T := by rw [hqN, Nat.mul_comm]
  have eM : M = qM * T := by rw [hqM, Nat.mul_comm]
  have eP : P = qP * T := by rw [hqP, Nat.mul_comm]
  have h6 : Appends (tiledNest N M P T (fun i1 j1 k1 l => .ok (l ++ [(i1, j1, k1)])))
      (fun t => ∑ ti in Finset.range qN, ∑ tj in Finset.range qM, ∑ tk in Finset.range qP,
        ∑ u in Finset.range T, ∑ v in Finset.range T, ∑ w in Finset.range T,
          (fun i j k => if t.1 = i ∧ t.2.1 = j ∧ t.2.2 = k then (1 : Int) else 0)
            (ti * T + u) (tj * T + v) (tk * T + w)) := by
    unfold tiledNest
    refine appends_forStep N T qN _ (fun ti t =>
      ∑ tj in Finset.range qM, ∑ tk in Finset.range qP,
        ∑ u in Finset.range T, ∑ v in Finset.range T, ∑ w in Finset.range T,
          (fun i j k => if t.1 = i ∧ t.2.1 = j ∧ t.2.2 = k then (1 : Int) else 0)
            (ti * T + u) (tj * T + v) (tk * T + w)) hT eN (fun ti _ => ?_)
    refine appends_forStep M T qM _ (fun tj t =>
      ∑ tk in Finset.range qP,
        ∑ u in Finset.range T, ∑ v in Finset.range T, ∑ w in Finset.range T,
          (fun i j k => if t.1 = i ∧ t.2.1 = j ∧ t.2.2 = k then (1 : Int) else 0)
            (ti * T + u) (tj * T + v) (tk * T + w)) hT eM (fun tj _ => ?_)
    refine appends_forStep P T qP _ (fun tk t =>
        ∑ u in Finset.range T, ∑ v in Finset.range T, ∑ w in Finset.range T,
          (fun i j k => if t.1 = i ∧ t.2.1 = j ∧ t.2.2 = k then (1 : Int) else 0)
            (ti * T + u) (tj * T + v) (tk * T + w)) hT eP (fun tk _ => ?_)
    refine appends_forUp (ti * T) (ti * T + T) T _ (fun u t =>
        ∑ v in Finset.range T, ∑ w in Finset.range T,
          (fun i j k => if t.1 = i ∧ t.2.1 = j ∧ t.2.2 = k then (1 : Int) else 0)
            (ti * T + u) (tj * T + v) (tk * T + w)) rfl (fun u _ => ?_)
    refine appends_forUp (tj * T) (tj * T + T) T _ (fun v t =>
        ∑ w in Finset.range T,
          (fun i j k => if t.1 = i ∧ t.2.1 = j ∧ t.2.2 = k then (1 : Int) else 0)
            (ti * T + u) (tj * T + v) (tk * T + w)) rfl (fun v _ => ?_)
    refine appends_forUp (tk * T) (tk * T + T) T _ (fun w t =>
          (fun i j k => if t.1 = i ∧ t.2.1 = j ∧ t.2.2 = k then (1 : Int) else 0)
            (ti * T + u) (tj * T + v) (tk * T + w)) rfl (fun w _ => ?_)
    exact appends_record (ti * T + u) (tj * T + v) (tk * T + w)
  obtain ⟨l, e, hl⟩ := h6 []
  refine ⟨l, e, exactlyOnce_of_count N M P l (fun t => ?_)⟩
  have e3 := sum_tiles3 T qN qM qP
    (fun i j k => if t.1 = i ∧ t.2.1 = j ∧ t.2.2 = k then (1 : Int) else 0)
  rw [← eN, ← eM, ← eP, sum_pick3] at e3
  refine (hl t).trans ?_
  beta_reduce
  rw [e3, List.count_nil, Nat.cast_zero, zero_add]

/-- The flat tiled nest visits every triple of `[0,N) x [0,M) x [0,M)` exactly once when
`T > 0` divides `N` and `M`. -/
theorem flatTiledVisits_exactlyOnce (N M T : Nat) (hT : 0 < T) (hN : T ∣ N) (hM : T ∣ M) :
    ∃ l, flatTiledVisits N M T = .ok l ∧ ExactlyOnce N M M l := by
  obtain ⟨qN, hqN⟩ := hN
  obtain ⟨qM, hqM⟩ := hM
  have eN : N = qN * T := by rw [hqN, Nat.mul_comm]
  have eM : M = qM * T := by rw [hqM, Nat.mul_comm]
  have h5 : Appends (flatTiledNest N M T (fun i1 j1 k1 l => .ok (l ++ [(i1, j1, k1)])))
      (fun t => ∑ ti in Finset.range qN, ∑ tj in Finset.range qM,
        ∑ u in Finset.range T, ∑ v in Finset.range T,
          (fun i j => ∑ k in Finset.range M,
            if t.1 = i ∧ t.2.1 = j ∧ t.2.2 = k then (1 : Int) else 0)
            (ti * T + u) (tj * T + v)) := by
    unfold flatTiledNest
    refine appends_forStep N T qN _ (fun ti t =>
      ∑ tj in Finset.range qM, ∑ u in Finset.range T, ∑ v in Finset.range T,
          (fun i j => ∑ k in Finset.range M,
            if t.1 = i ∧ t.2.1 = j ∧ t.2.2 = k then (1 : Int) else 0)
            (ti * T + u) (tj * T + v)) hT eN (fun ti _ => ?_)
    refine appends_forStep M T qM _ (fun tj t =>
      ∑ u in Finset.range T, ∑ v in Finset.range T,
          (fun i j => ∑ k in Finset.range M,
            if t.1 = i ∧ t.2.1 = j ∧ t.2.2 = k then (1 : Int) else 0)
            (ti * T + u) (tj * T + v)) hT eM (fun tj _ => ?_)
    refine appends_forUp (ti * T) (ti * T + T) T _ (fun u t =>
        ∑ v in Finset.range T,
          (fun i j => ∑ k in Finset.range M,
            if t.1 = i ∧ t.2.1 = j ∧ t.2.2 = k then (1 : Int) else 0)
            (ti * T + u) (tj * T + v)) rfl (fun u _ => ?_)
    refine appends_forUp (tj * T) (tj * T + T) T _ (fun v t =>
          (fun i j => ∑ k in Finset.range M,
            if t.1 = i ∧ t.2.1 = j ∧ t.2.2 = k then (1 : Int) else 0)
            (ti * T + u) (tj * T + v)) rfl (fun v _ => ?_)
    refine appends_forUp 0 M M _ (fun k t =>
        if t.1 = ti * T + u ∧ t.2.1 = tj * T + v ∧ t.2.2 = k then (1 : Int) else 0)
      (by simp) (fun k _ => ?_)
    rw [Nat.zero_add]
    exact appends_record (ti * T + u) (tj * T + v) k
  obtain ⟨l, e, hl⟩ := h5 []
  refine ⟨l, e, exactlyOnce_of_count N M M l (fun t => ?_)⟩
  have e2 := sum_tiles2 T qN qM
    (fun i j => ∑ k in Finset.range M,
      if t.1 = i ∧ t.2.1 = j ∧ t.2.2 = k then (1 : Int) else 0)
  rw [← eN, ← eM, sum_pick3] at e2
  refine (hl t).trans ?_
  beta_reduce
  rw [e2, List.count_nil, Nat.cast_zero, zero_add]

/-! ## Release of the buffers -/

/-- With its loop bounds `M` and `P`, `delete_matrix_buffers` stays inside the arrays of row
pointers when `M = P` and `M` is at most `N`; it then returns. -/
theorem delete_matrix_buffers_ok (N M : Nat) (s : State) (h : Allocated N M M s)
    (hMN : M ≤ N) : delete_matrix_buffers M M s = .ok s := by
  have hA := h .A; have hB := h .B; have hBt := h .Bt
  have h1 := h .C1; have h2 := h .C2; have h3 := h .C3; have h4 := h .C4
  simp only [allocate_matrix_buffers] at hA hB hBt h1 h2 h3 h4
  have row : ∀ b, M ≤ (s b).rows → forUp 0 M (fun i => deleteRow b i) s = .ok s :=
    fun b hb => forUp_fixed 0 M _ s (fun i _ hi => by
      have : i < (s b).rows := by omega
      simp only [deleteRow, this, if_true])
  unfold delete_matrix_buffers
  rw [row .A (by omega), andThen_ok, row .B (by omega), andThen_ok, row .Bt (by omega),
    andThen_ok, row .C1 (by omega), andThen_ok, row .C2 (by omega), andThen_ok,
    row .C3 (by omega), andThen_ok, row .C4 (by omega)]

/-! ## The claims -/

/-- C1: at the built configuration (`N = M = P = 2048`, `TILE_SIZE = 8`), for every state
with the allocated sizes in which `Bt` is the transpose of `B` and `C1`..`C4` are zero, the
four kernel loop nests of `main` all return, afterwards
`C1[i][k] == C2[i][k] == C3[i][k] == C4[i][k]` for all `i, k < 2048`, and
`verify_matrix_multiplication` passes without a failed assert. Arithmetic is 32-bit
wraparound, so this includes overflowing accumulations. -/
theorem end_to_end_equivalence (s : State) (h : Allocated 2048 2048 2048 s)
    (htr : Transposed 2048 2048 s) (hz : ZeroResults 2048 2048 s) :
    ∃ s4, kernels 2048 2048 2048 8 s = .ok s4 ∧
      (∀ i k, i < 2048 → k < 2048 → (s4 .C1).data i k = (s4 .C2).data i k ∧
        (s4 .C2).data i k = (s4 .C3).data i k ∧ (s4 .C3).data i k = (s4 .C4).data i k) ∧
      verify_matrix_multiplication 2048 2048 s4 = .ok s4 := by
  obtain ⟨s4, e, a4, _, _, _, v⟩ :=
    kernels_result 2048 2048 8 s (by decide) ⟨256, by decide⟩ ⟨256, by decide⟩ h htr hz
  have heq : ∀ i k, i < 2048 → k < 2048 → (s4 .C1).data i k = (s4 .C2).data i k ∧
      (s4 .C2).data i k = (s4 .C3).data i k ∧ (s4 .C3).data i k = (s4 .C4).data i k := by
    intro i k hi hk
    rw [v .C1 (by simp) i k hi hk, v .C2 (by simp) i k hi hk, v .C3 (by simp) i k hi hk,
      v .C4 (by simp) i k hi hk]
    exact ⟨rfl, rfl, rfl⟩
  exact ⟨s4, e, heq, verify_ok 2048 2048 2048 s4 a4 heq⟩

/-- Witness for C1: inputs whose products overflow (`A[i][j] = 4194304 - i`,
`B[j][k] = 4194304 - k`). -/
theorem end_to_end_equivalence_witness :
    ∃ s4, kernels 2048 2048 2048 8
        (inputState 2048 2048 2048 (fun i _ => 4194304 - i) (fun _ k => 4194304 - k)) = .ok s4 ∧
      (∀ i k, i < 2048 → k < 2048 → (s4 .C1).data i k = (s4 .C2).data i k ∧
        (s4 .C2).data i k = (s4 .C3).data i k ∧ (s4 .C3).data i k = (s4 .C4).data i k) ∧
      verify_matrix_multiplication 2048 2048 s4 = .ok s4 :=
  end_to_end_equivalence _ (inputState_allocated _ _ _ _ _) (inputState_transposed _ _ _ _ _)
    (inputState_zero _ _ _ _ _)

/-- C2: for all dimensions `N`, `M`, `P` and every state with an `N x M` buffer `A`, an
`M x P` buffer `B` and `C1` zero, the naive loop nest returns and leaves
`C1[i][k]` equal to the sum over `j < M` of `A[i][j] * B[j][k]` reduced to an `int`, for
all `i < N`, `k < P`. -/
theorem naive_eq_reference (N M P : Nat) (s : State) (h : Allocated N M P s)
    (hz : ∀ i k, i < N → k < P → (s .C1).data i k = 0) :
    ∃ s1, naiveKernel N M P s = .ok s1 ∧
      ∀ i k, i < N → k < P →
        (s1 .C1).data i k = wrap32 (∑ j in Finset.range M, (s .A).data i j * (s .B).data j k) := by
  obtain ⟨s1, e1, _, v1⟩ := naive_result N M P s h
  exact ⟨s1, e1, fun i k hi hk => v1 i k hi hk (hz i k hi hk)⟩

/-- Witness for C2: a `2 x 3` by `3 x 4` product. -/
theorem naive_eq_reference_witness :
    ∃ s1, naiveKernel 2 3 4
        (inputState 2 3 4 (fun i j => 3 * i + j + 1) (fun j k => 70000 * j - k)) = .ok s1 ∧
      ∀ i k, i < 2 → k < 4 →
        (s1 .C1).data i k = wrap32 (∑ j in Finset.range 3,
          ((inputState 2 3 4 (fun i j => 3 * i + j + 1) (fun j k => 70000 * j - k)) .A).data i j *
          ((inputState 2 3 4 (fun i j => 3 * i + j + 1) (fun j k => 70000 * j - k)) .B).data j k) :=
  naive_eq_reference 2 3 4 _ (inputState_allocated _ _ _ _ _) (fun _ _ _ _ => rfl)

/-- C3: for all dimensions and every state with the allocated sizes, `Bt` the transpose of
`B` and `C1`, `C2` zero, the naive and the transposed loop nests both return and afterwards
`C2[i][k] == C1[i][k]` for all `i < N`, `k < P`. -/
theorem transposed_eq_naive (N M P : Nat) (s : State) (h : Allocated N M P s)
    (htr : Transposed M P s)
    (hz1 : ∀ i k, i < N → k < P → (s .C1).data i k = 0)
    (hz2 : ∀ i k, i < N → k < P → (s .C2).data i k = 0) :
    ∃ s1 s2, naiveKernel N M P s = .ok s1 ∧ transposedKernel N M P s1 = .ok s2 ∧
      ∀ i k, i < N → k < P → (s2 .C2).data i k = (s2 .C1).data i k := by
  obtain ⟨s1, e1, f1, v1⟩ := naive_result N M P s h
  obtain ⟨s2, e2, f2, v2⟩ := transposed_result N M P s1 (h.of_sameBut f1)
    (htr.frame f1 (by decide) (by decide))
  refine ⟨s1, s2, e1, e2, fun i k hi hk => ?_⟩
  rw [f2.1 .C1 (by decide), v1 i k hi hk (hz1 i k hi hk),
    v2 i k hi hk (by rw [f1.1 .C2 (by decide)]; exact hz2 i k hi hk),
    f1.1 .A (by decide), f1.1 .B (by decide)]

/-- Witness for C3: a `3 x 2` by `2 x 5` product. -/
theorem transposed_eq_naive_witness :
    ∃ s1 s2, naiveKernel 3 2 5
        (inputState 3 2 5 (fun i j => 65536 * i + j) (fun j k => 65536 * k + j)) = .ok s1 ∧
      transposedKernel 3 2 5 s1 = .ok s2 ∧
      ∀ i k, i < 3 → k < 5 → (s2 .C2).data i k = (s2 .C1).data i k :=
  transposed_eq_naive 3 2 5 _ (inputState_allocated _ _ _ _ _) (inputState_transposed _ _ _ _ _)
    (fun _ _ _ _ => rfl) (fun _ _ _ _ => rfl)

/-- C4: for every `n` and every `T > 0` dividing `n`, with `N = M = P = n`, `Bt` the
transpose of `B` and `C1`, `C3` zero, the naive and the six-deep tiled loop nests both return
and `C3[i][k]` equals the naive result `C1[i][k]`, which is the sum over `j` of
`A[i][j] * B[j][k]` in wraparound arithmetic, for all `i, k < n`. -/
theorem tiled_eq_naive_square (n T : Nat) (s : State) (hT : 0 < T) (hd : T ∣ n)
    (h : Allocated n n n s) (htr : Transposed n n s)
    (hz1 : ∀ i k, i < n → k < n → (s .C1).data i k = 0)
    (hz3 : ∀ i k, i < n → k < n → (s .C3).data i k = 0) :
    ∃ s1 s3, naiveKernel n n n s = .ok s1 ∧ tiledKernel n n n T s1 = .ok s3 ∧
      ∀ i k, i < n → k < n → (s3 .C3).data i k = (s3 .C1).data i k ∧
        (s3 .C1).data i k = matProd n (s .A).data (s .B).data i k := by
  obtain ⟨s1, e1, f1, v1⟩ := naive_result n n n s h
  obtain ⟨s3, e3, f3, v3⟩ := tiled_result n n T s1 hT hd hd (h.of_sameBut f1)
    (htr.frame f1 (by decide) (by decide))
  refine ⟨s1, s3, e1, e3, fun i k hi hk => ?_⟩
  rw [f3.1 .C1 (by decide), v1 i k hi hk (hz1 i k hi hk),
    v3 i k hi hk (by rw [f1.1 .C3 (by decide)]; exact hz3 i k hi hk),
    f1.1 .A (by decide), f1.1 .B (by decide)]
  exact ⟨rfl, rfl⟩

/-- Witness for C4: `n = 8`, `T = 2`. -/
theorem tiled_eq_naive_square_witness :
    ∃ s1 s3, naiveKernel 8 8 8
        (inputState 8 8 8 (fun i j => 8 * i + j + 1) (fun j k => 100000 * j + k)) = .ok s1 ∧
      tiledKernel 8 8 8 2 s1 = .ok s3 ∧
      ∀ i k, i < 8 → k < 8 → (s3 .C3).data i k = (s3 .C1).data i k ∧
        (s3 .C1).data i k = matProd 8
          ((inputState 8 8 8 (fun i j => 8 * i + j + 1) (fun j k => 100000 * j + k)) .A).data
          ((inputState 8 8 8 (fun i j => 8 * i + j + 1) (fun j k => 100000 * j + k)) .B).data
          i k :=
  tiled_eq_naive_square 8 2 _ (by decide) (by decide) (inputState_allocated _ _ _ _ _)
    (inputState_transposed _ _ _ _ _) (fun _ _ _ _ => rfl) (fun _ _ _ _ => rfl)

/-- C5: for every `n` and every `T > 0` dividing `n` (the single tile `T = n` included), with
`N = M = P = n`, `Bt` the transpose of `B` and `C1`, `C4` zero, the naive and the flat tiled
loop nests both return and `C4[i][k]` equals the naive result `C1[i][k]`, the sum over `j` of
`A[i][j] * B[j][k]` in wraparound arithmetic, for all `i, k < n`. -/
theorem flatTiled_eq_naive_square (n T : Nat) (s : State) (hT : 0 < T) (hd : T ∣ n)
    (h : Allocated n n n s) (htr : Transposed n n s)
    (hz1 : ∀ i k, i < n → k < n → (s .C1).data i k = 0)
    (hz4 : ∀ i k, i < n → k < n → (s .C4).data i k = 0) :
    ∃ s1 s4, naiveKernel n n n s = .ok s1 ∧ flatTiledKernel n n T s1 = .ok s4 ∧
      ∀ i k, i < n → k < n → (s4 .C4).data i k = (s4 .C1).data i k ∧
        (s4 .C1).data i k = matProd n (s .A).data (s .B).data i k := by
  obtain ⟨s1, e1, f1, v1⟩ := naive_result n n n s h
  obtain ⟨s4, e4, f4, v4⟩ := flatTiled_result n n n T s1 hT hd hd (Nat.le_refl n)
    (h.of_sameBut f1) (htr.frame f1 (by decide) (by decide))
  refine ⟨s1, s4, e1, e4, fun i k hi hk => ?_⟩
  rw [f4.1 .C1 (by decide), v1 i k hi hk (hz1 i k hi hk),
    v4 i k hi hk (by rw [f1.1 .C4 (by decide)]; exact hz4 i k hi hk),
    f1.1 .A (by decide), f1.1 .B (by decide)]
  exact ⟨rfl, rfl⟩

/-- Witness for C5: the single-tile case `n = T = 8`. -/
theorem flatTiled_eq_naive_square_witness :
    ∃ s1 s4, naiveKernel 8 8 8
        (inputState 8 8 8 (fun i j => 8 * i + j + 1) (fun j k => 100000 * j + k)) = .ok s1 ∧
      flatTiledKernel 8 8 8 s1 = .ok s4 ∧
      ∀ i k, i < 8 → k < 8 → (s4 .C4).data i k = (s4 .C1).data i k ∧
        (s4 .C1).data i k = matProd 8
          ((inputState 8 8 8 (fun i j => 8 * i + j + 1) (fun j k => 100000 * j + k)) .A).data
          ((inputState 8 8 8 (fun i j => 8 * i + j + 1) (fun j k => 100000 * j + k)) .B).data
          i k :=
  flatTiled_eq_naive_square 8 8 _ (by decide) (by decide) (inputState_allocated _ _ _ _ _)
    (inputState_transposed _ _ _ _ _) (fun _ _ _ _ => rfl) (fun _ _ _ _ => rfl)

/-- C6 (the code goes out of bounds on rectangular dimensions): with `T = 1` dividing every
dimension, the tiled loop nest as written faults with an out-of-bounds access both for
`N = 1, M = 2, P = 1` (`j1` reaches column 1 of the `1 x 1` buffer `C3`) and for
`N = 1, M = 1, P = 2` (`k1` reaches column 1 of the `1 x 1` buffer `A`). -/
theorem tiled_rectangular_out_of_bounds :
    tiledKernel 1 2 1 1 (inputState 1 2 1 (fun _ _ => 1) (fun _ _ => 1))
        = .error .outOfBounds ∧
      tiledKernel 1 1 2 1 (inputState 1 1 2 (fun _ _ => 1) (fun _ _ => 1))
        = .error .outOfBounds :=
  ⟨rfl, rfl⟩

/-- C7 (the code misses result columns on rectangular dimensions): with `T = 1`, for
`N = 1, M = 1, P = 2` and all input entries 1 the flat tiled loop nest returns with
`C4[0][1] == 0` although the product entry is 1, and for `N = 1, M = 2, P = 1` it faults
with an out-of-bounds access. -/
theorem flatTiled_rectangular_wrong :
    (∃ s1, flatTiledKernel 1 1 1 (inputState 1 1 2 (fun _ _ => 1) (fun _ _ => 1)) = .ok s1 ∧
        (s1 .C4).data 0 1 = 0 ∧ matProd 1 (fun _ _ => 1) (fun _ _ => 1) 0 1 = 1) ∧
      flatTiledKernel 1 2 1 (inputState 1 2 1 (fun _ _ => 1) (fun _ _ => 1))
        = .error .outOfBounds :=
  ⟨⟨_, rfl, rfl, by simp [matProd, wrap32]⟩, rfl⟩

/-- C8: for all dimensions and every sequence of rand() results, whenever
`initialize_matrices` returns (which it does exactly when its divisors are usable) `Bt` is the
transpose of `B`, `Bt[c][r] == B[r][c]` for all `r < M`, `c < P`. None of the four kernel loop
nests changes `B` or `Bt`: from the initialised state the naive and the transposed nest
return, for all dimensions, with `B` and `Bt` unchanged and still transposes of each other;
each of the four nests, from any state and whenever it returns, leaves `B` and `Bt` as they
were; so whenever the four nests return the relation still holds when verification runs, and
they do return when `M = P` and `T > 0` divides `N` and `M`. -/
theorem transpose_invariant (N M P : Nat) (rand : Nat → Int) (s : State)
    (h : Allocated N M P s) :
    ((∃ s0, initialize_matrices N M P rand s = .ok s0) ↔ ModulusOk N M ∧ ModulusOk M P) ∧
    ∀ s0, initialize_matrices N M P rand s = .ok s0 →
      (∀ r c, r < M → c < P → (s0 .Bt).data c r = (s0 .B).data r c) ∧
      (∃ s1 s2, naiveKernel N M P s0 = .ok s1 ∧ transposedKernel N M P s1 = .ok s2 ∧
        s1 .B = s0 .B ∧ s1 .Bt = s0 .Bt ∧ s2 .B = s0 .B ∧ s2 .Bt = s0 .Bt ∧
        ∀ r c, r < M → c < P → (s2 .Bt).data c r = (s2 .B).data r c) ∧
      (∀ T st st1,
        (naiveKernel N M P st = .ok st1 ∨ transposedKernel N M P st = .ok st1 ∨
          tiledKernel N M P T st = .ok st1 ∨ flatTiledKernel N M T st = .ok st1) →
        st1 .B = st .B ∧ st1 .Bt = st .Bt) ∧
      (∀ T s4, kernels N M P T s0 = .ok s4 →
        s4 .B = s0 .B ∧ s4 .Bt = s0 .Bt ∧
        ∀ r c, r < M → c < P → (s4 .Bt).data c r = (s4 .B).data r c) ∧
      (M = P → ∀ T, 0 < T → T ∣ N → T ∣ M →
        ∃ s4, kernels N M P T s0 = .ok s4 ∧ s4 .B = s0 .B ∧ s4 .Bt = s0 .Bt ∧
          ∀ r c, r < M → c < P → (s4 .Bt).data c r = (s4 .B).data r c) := by
  refine ⟨⟨fun ⟨s0, he⟩ => modulusOk_of_initialize N M P rand s s0 h he, fun hm => ?_⟩, ?_⟩
  · obtain ⟨s1, e1, _⟩ := initialize_result N M P rand s h hm.1 hm.2
    exact ⟨s1, e1⟩
  · intro s0 he
    obtain ⟨hA, hB⟩ := modulusOk_of_initialize N M P rand s s0 h he
    obtain ⟨s1, e1, a0, _, _, htr, hz⟩ := initialize_result N M P rand s h hA hB
    have e : s1 = s0 := by
      rw [e1] at he
      exact Except.ok.inj he
    subst e
    have hframe : ∀ T s4, kernels N M P T s1 = .ok s4 →
        s4 .B = s1 .B ∧ s4 .Bt = s1 .Bt ∧
        ∀ r c, r < M → c < P → (s4 .Bt).data c r = (s4 .B).data r c := by
      intro T s4 hk
      obtain ⟨_, fB, fBt⟩ := kernels_frame N M P T s1 s4 hk
      refine ⟨fB, fBt, fun r c hr hc => ?_⟩
      rw [fB, fBt]
      exact htr r c hr hc
    refine ⟨htr, ?_, ?_, hframe, ?_⟩
    · obtain ⟨t1, k1, f1, _⟩ := naive_result N M P s1 a0
      obtain ⟨t2, k2, f2, _⟩ := transposed_result N M P t1 (a0.of_sameBut f1)
        (htr.frame f1 (by decide) (by decide))
      have b1 : t1 .B = s1 .B := f1.1 .B (by decide)
      have c1 : t1 .Bt = s1 .Bt := f1.1 .Bt (by decide)
      have b2 : t2 .B = s1 .B := by rw [f2.1 .B (by decide), b1]
      have c2 : t2 .Bt = s1 .Bt := by rw [f2.1 .Bt (by decide), c1]
      refine ⟨t1, t2, k1, k2, b1, c1, b2, c2, fun r c hr hc => ?_⟩
      rw [b2, c2]
      exact htr r c hr hc
    · intro T st st1 hk
      obtain ⟨g1, g2, g3, g4⟩ := kernel_frames N M P T st st1
      rcases hk with hk | hk | hk | hk
      · exact ⟨(g1 hk).1 .B (by decide), (g1 hk).1 .Bt (by decide)⟩
      · exact ⟨(g2 hk).1 .B (by decide), (g2 hk).1 .Bt (by decide)⟩
      · exact ⟨(g3 hk).1 .B (by decide), (g3 hk).1 .Bt (by decide)⟩
      · exact ⟨(g4 hk).1 .B (by decide), (g4 hk).1 .Bt (by decide)⟩
    · intro hMP T hT hN hM
      subst hMP
      obtain ⟨s4, k4, _⟩ := kernels_result N M T s1 hT hN hM a0 htr hz
      exact ⟨s4, k4, hframe T s4 k4⟩

/-- Witness for C8: the buffers as allocated for a `4 x 6` by `6 x 6` product, where the
four nests return for `T = 1` and `T = 2`. -/
theorem transpose_invariant_witness :
    ((∃ s0, initialize_matrices 4 6 6 (fun n => 7 * n)
        (allocate_matrix_buffers 4 6 6 (fun _ _ _ => 5)) = .ok s0) ↔
      ModulusOk 4 6 ∧ ModulusOk 6 6) ∧
    ∀ s0, initialize_matrices 4 6 6 (fun n => 7 * n)
        (allocate_matrix_buffers 4 6 6 (fun _ _ _ => 5)) = .ok s0 →
      (∀ r c, r < 6 → c < 6 → (s0 .Bt).data c r = (s0 .B).data r c) ∧
      (∃ s1 s2, naiveKernel 4 6 6 s0 = .ok s1 ∧ transposedKernel 4 6 6 s1 = .ok s2 ∧
        s1 .B = s0 .B ∧ s1 .Bt = s0 .Bt ∧ s2 .B = s0 .B ∧ s2 .Bt = s0 .Bt ∧
        ∀ r c, r < 6 → c < 6 → (s2 .Bt).data c r = (s2 .B).data r c) ∧
      (∀ T st st1,
        (naiveKernel 4 6 6 st = .ok st1 ∨ transposedKernel 4 6 6 st = .ok st1 ∨
          tiledKernel 4 6 6 T st = .ok st1 ∨ flatTiledKernel 4 6 T st = .ok st1) →
        st1 .B = st .B ∧ st1 .Bt = st .Bt) ∧
      (∀ T s4, kernels 4 6 6 T s0 = .ok s4 →
        s4 .B = s0 .B ∧ s4 .Bt = s0 .Bt ∧
        ∀ r c, r < 6 → c < 6 → (s4 .Bt).data c r = (s4 .B).data r c) ∧
      (6 = 6 → ∀ T, 0 < T → T ∣ 4 → T ∣ 6 →
        ∃ s4, kernels 4 6 6 T s0 = .ok s4 ∧ s4 .B = s0 .B ∧ s4 .Bt = s0 .Bt ∧
          ∀ r c, r < 6 → c < 6 → (s4 .Bt).data c r = (s4 .B).data r c) :=
  transpose_invariant 4 6 6 _ _ (allocate_allocated _ _ _ _)

/-- C9 fails: at the built configuration with every entry of `A` and `B` equal to
`4194304 = N * M` (inside the initialiser's range), already the first product
`A[0][0] * B[0][0] = 2^44` does not fit an `int`, and the naive kernel leaves
`C1[0][0] == 0` although the exact sum over `j` of `A[0][j] * B[j][0]` is `2^55`. -/
theorem accumulator_wraps :
    ((1 : Int) ≤ 4194304 ∧ (4194304 : Int) ≤ 2048 * 2048) ∧
    ¬ InRange (4194304 * 4194304) ∧
    dot 2048 (fun _ _ => 4194304) (fun _ _ => 4194304) 0 0 = 36028797018963968 ∧
    ∃ s1, naiveKernel 2048 2048 2048
        (inputState 2048 2048 2048 (fun _ _ => 4194304) (fun _ _ => 4194304)) = .ok s1 ∧
      (s1 .C1).data 0 0 = 0 := by
  have hdot : dot 2048 (fun _ _ => 4194304) (fun _ _ => 4194304) 0 0 = 36028797018963968 := by
    simp [dot]
  refine ⟨by decide, by decide, hdot, ?_⟩
  obtain ⟨s1, e1, _, v1⟩ := naive_result 2048 2048 2048 _
    (inputState_allocated 2048 2048 2048 (fun _ _ => 4194304) (fun _ _ => 4194304))
  refine ⟨s1, e1, ?_⟩
  rw [v1 0 0 (by decide) (by decide) rfl, matProd_eq]
  show wrap32 (dot 2048 (fun _ _ => 4194304) (fun _ _ => 4194304) 0 0) = 0
  rw [hdot]
  decide

/-- C9 as amended: at the built configuration, for every `A` with entries in `[1, N * M]` and
every `B` with entries in `[1, M * P]`, `Bt` its transpose and zeroed result buffers, the four
kernels return and every stored `C[i][k]` is the exact sum over `j` of `A[i][j] * B[j][k]`
reduced modulo `2^32` to an `int`; it is the exact sum whenever that sum is below `2^31`. -/
theorem results_are_wrapped_sums (s : State) (h : Allocated 2048 2048 2048 s)
    (htr : Transposed 2048 2048 s) (hz : ZeroResults 2048 2048 s)
    (hA : ∀ i j, i < 2048 → j < 2048 → 1 ≤ (s .A).data i j ∧ (s .A).data i j ≤ 2048 * 2048)
    (hB : ∀ j k, j < 2048 → k < 2048 → 1 ≤ (s .B).data j k ∧ (s .B).data j k ≤ 2048 * 2048) :
    ∃ s4, kernels 2048 2048 2048 8 s = .ok s4 ∧
      ∀ c, c = Buf.C1 ∨ c = Buf.C2 ∨ c = Buf.C3 ∨ c = Buf.C4 →
        ∀ i k, i < 2048 → k < 2048 →
          (s4 c).data i k = wrap32 (dot 2048 (s .A).data (s .B).data i k) ∧
          (dot 2048 (s .A).data (s .B).data i k < 2147483648 →
            (s4 c).data i k = dot 2048 (s .A).data (s .B).data i k) := by
  obtain ⟨s4, e, _, _, _, _, v⟩ :=
    kernels_result 2048 2048 8 s (by decide) ⟨256, by decide⟩ ⟨256, by decide⟩ h htr hz
  refine ⟨s4, e, fun c hc i k hi hk => ?_⟩
  have hv := v c hc i k hi hk
  rw [matProd_eq] at hv
  refine ⟨hv, fun hlt => ?_⟩
  rw [hv]
  refine wrap32_of_inRange ⟨?_, hlt⟩
  have h0 := dot_nonneg 2048 (s .A).data (s .B).data i k
    (fun j hj => by have := (hA i j hi hj).1; omega)
    (fun j hj => by have := (hB j k hj hk).1; omega)
  omega

/-- Witness for the amended C9: every entry of `A` and `B` equal to 3. -/
theorem results_are_wrapped_sums_witness :
    ∃ s4, kernels 2048 2048 2048 8
        (inputState 2048 2048 2048 (fun _ _ => 3) (fun _ _ => 3)) = .ok s4 ∧
      ∀ c, c = Buf.C1 ∨ c = Buf.C2 ∨ c = Buf.C3 ∨ c = Buf.C4 →
        ∀ i k, i < 2048 → k < 2048 →
          (s4 c).data i k = wrap32 (dot 2048
            ((inputState 2048 2048 2048 (fun _ _ => 3) (fun _ _ => 3)) .A).data
            ((inputState 2048 2048 2048 (fun _ _ => 3) (fun _ _ => 3)) .B).data i k) ∧
          (dot 2048 ((inputState 2048 2048 2048 (fun _ _ => 3) (fun _ _ => 3)) .A).data
              ((inputState 2048 2048 2048 (fun _ _ => 3) (fun _ _ => 3)) .B).data i k
              < 2147483648 →
            (s4 c).data i k = dot 2048
              ((inputState 2048 2048 2048 (fun _ _ => 3) (fun _ _ => 3)) .A).data
              ((inputState 2048 2048 2048 (fun _ _ => 3) (fun _ _ => 3)) .B).data i k) :=
  results_are_wrapped_sums _ (inputState_allocated _ _ _ _ _) (inputState_transposed _ _ _ _ _)
    (inputState_zero _ _ _ _ _)
    (fun _ _ _ _ => by show (1 : Int) ≤ 3 ∧ (3 : Int) ≤ 2048 * 2048; decide)
    (fun _ _ _ _ => by show (1 : Int) ≤ 3 ∧ (3 : Int) ≤ 2048 * 2048; decide)

/-- C10 fails: with `N = M = P = 10` and `TILE_SIZE = 4` the run does not stop at start-up:
initialisation, the naive kernel and the transposed kernel complete, and the run ends in
stage 3, the tiled kernel, with an out-of-bounds access. -/
theorem no_configuration_error :
    main 10 10 10 4 (fun _ _ _ => 0) (fun n => n) = .error (3, .outOfBounds) ∧
    ∃ s0 s1 s2,
      initialize_matrices 10 10 10 (fun n => n)
        (allocate_matrix_buffers 10 10 10 (fun _ _ _ => 0)) = .ok s0 ∧
      naiveKernel 10 10 10 s0 = .ok s1 ∧ transposedKernel 10 10 10 s1 = .ok s2 ∧
      tiledKernel 10 10 10 4 s2 = .error .outOfBounds :=
  main_nondividing 10 4 _ _ (by decide) (by decide) (by decide) (fun _ _ => by decide)

/-- C10 as amended: when `TILE_SIZE > 0` does not divide the square dimension `n > 0` (and
`n * n` is a usable divisor for the initialiser), the program performs no validation at
start-up: initialisation and the first two kernels complete and the run ends in the tiled
kernel with an out-of-bounds access, for every initial memory content and every sequence of
rand() results. -/
theorem nondividing_tile_runs_into_tiled_kernel (n T : Nat) (junk : Buf → Nat → Nat → Int)
    (rand : Nat → Int) (hn : 0 < n) (hT : 0 < T) (hd : ¬ T ∣ n) (hm : ModulusOk n n) :
    main n n n T junk rand = .error (3, .outOfBounds) :=
  (main_nondividing n T junk rand hn hT hd hm).1

/-- Witness for the amended C10: `n = 6`, `T = 4`. -/
theorem nondividing_tile_runs_into_tiled_kernel_witness :
    main 6 6 6 4 (fun _ i j => i + j) (fun n => 3 * n + 1) = .error (3, .outOfBounds) :=
  nondividing_tile_runs_into_tiled_kernel 6 4 _ _ (by decide) (by decide) (by decide)
    (fun _ _ => by decide)

/-- C11: on allocated result buffers, `verify_matrix_multiplication` completes without a
failed assertion if and only if at every `i < N`, `k < P` all six pairs among `C1[i][k]`,
`C2[i][k]`, `C3[i][k]`, `C4[i][k]` are equal; when it completes the state is the one it
started from (no buffer is modified), and the only way it can stop is a failed assertion at
some index pair. -/
theorem verifier_decides_equality (N M P : Nat) (s : State) (h : Allocated N M P s) :
    ((∃ s1, verify_matrix_multiplication N P s = .ok s1) ↔
      ∀ i k, i < N → k < P →
        (s .C1).data i k = (s .C2).data i k ∧ (s .C1).data i k = (s .C3).data i k ∧
        (s .C1).data i k = (s .C4).data i k ∧ (s .C2).data i k = (s .C3).data i k ∧
        (s .C2).data i k = (s .C4).data i k ∧ (s .C3).data i k = (s .C4).data i k) ∧
    (∀ s1, verify_matrix_multiplication N P s = .ok s1 → s1 = s) ∧
    (∀ e, verify_matrix_multiplication N P s = .error e →
      ∃ i k, i < N ∧ k < P ∧ e = .assertFailed i k) := by
  obtain ⟨hok, herr⟩ := verify_spec N M P s h
  refine ⟨⟨fun ⟨s1, h1⟩ i k hi hk => ?_, fun hall => ⟨s, ?_⟩⟩, fun s1 h1 => (hok s1 h1).1, herr⟩
  · obtain ⟨e12, e23, e34⟩ := (hok s1 h1).2 i (Nat.zero_le i) hi k (Nat.zero_le k) hk
    exact ⟨e12, e12.trans e23, (e12.trans e23).trans e34, e23, e23.trans e34, e34⟩
  · exact verify_ok N M P s h (fun i k hi hk =>
      ⟨(hall i k hi hk).1, (hall i k hi hk).2.2.2.1, (hall i k hi hk).2.2.2.2.2⟩)

/-- Witness for C11: zeroed `3 x 2` result buffers. -/
theorem verifier_decides_equality_witness :
    ((∃ s1, verify_matrix_multiplication 3 2
        (inputState 3 4 2 (fun i j => i + j) (fun j k => j - k)) = .ok s1) ↔
      ∀ i k, i < 3 → k < 2 →
        ((inputState 3 4 2 (fun i j => i + j) (fun j k => j - k)) .C1).data i k =
          ((inputState 3 4 2 (fun i j => i + j) (fun j k => j - k)) .C2).data i k ∧
        ((inputState 3 4 2 (fun i j => i + j) (fun j k => j - k)) .C1).data i k =
          ((inputState 3 4 2 (fun i j => i + j) (fun j k => j - k)) .C3).data i k ∧
        ((inputState 3 4 2 (fun i j => i + j) (fun j k => j - k)) .C1).data i k =
          ((inputState 3 4 2 (fun i j => i + j) (fun j k => j - k)) .C4).data i k ∧
        ((inputState 3 4 2 (fun i j => i + j) (fun j k => j - k)) .C2).data i k =
          ((inputState 3 4 2 (fun i j => i + j) (fun j k => j - k)) .C3).data i k ∧
        ((inputState 3 4 2 (fun i j => i + j) (fun j k => j - k)) .C2).data i k =
          ((inputState 3 4 2 (fun i j => i + j) (fun j k => j - k)) .C4).data i k ∧
        ((inputState 3 4 2 (fun i j => i + j) (fun j k => j - k)) .C3).data i k =
          ((inputState 3 4 2 (fun i j => i + j) (fun j k => j - k)) .C4).data i k) ∧
    (∀ s1, verify_matrix_multiplication 3 2
        (inputState 3 4 2 (fun i j => i + j) (fun j k => j - k)) = .ok s1 →
      s1 = inputState 3 4 2 (fun i j => i + j) (fun j k => j - k)) ∧
    (∀ e, verify_matrix_multiplication 3 2
        (inputState 3 4 2 (fun i j => i + j) (fun j k => j - k)) = .error e →
      ∃ i k, i < 3 ∧ k < 2 ∧ e = .assertFailed i k) :=
  verifier_decides_equality 3 4 2 _ (inputState_allocated _ _ _ _ _)

/-- C12: when `N * M` and `M * P` fit an `int` (as at the built configuration, where both
are 4194304), for every sequence of non-negative rand() results `initialize_matrices`
returns, the divisors are computed without overflow, every element of `A` lies in
`[1, N * M]` and every element of `B` lies in `[1, M * P]`. -/
theorem initial_value_range (N M P : Nat) (rand : Nat → Int) (s : State)
    (h : Allocated N M P s) (hNM : N * M < 2147483648) (hMP : M * P < 2147483648)
    (hr : ∀ n, 0 ≤ rand n) :
    wrap32 ((N : Int) * (M : Int)) = ((N * M : Nat) : Int) ∧
    wrap32 ((M : Int) * (P : Int)) = ((M * P : Nat) : Int) ∧
    ∃ s1, initialize_matrices N M P rand s = .ok s1 ∧
      (∀ i j, i < N → j < M →
        1 ≤ (s1 .A).data i j ∧ (s1 .A).data i j ≤ ((N * M : Nat) : Int)) ∧
      (∀ j k, j < M → k < P →
        1 ≤ (s1 .B).data j k ∧ (s1 .B).data j k ≤ ((M * P : Nat) : Int)) := by
  refine ⟨wrap32_natMul N M hNM, wrap32_natMul M P hMP, ?_⟩
  obtain ⟨s1, e1, _, vA, vB, _, _⟩ := initialize_result N M P rand s h
    (modulusOk_of_lt N M hNM) (modulusOk_of_lt M P hMP)
  refine ⟨s1, e1, fun i j hi hj => ?_, fun j k hj hk => ?_⟩
  · rw [vA i j hi hj]
    exact entryOf_range N M _ (Nat.mul_pos (by omega) (by omega)) hNM (hr _)
  · rw [vB j k hj hk]
    exact entryOf_range M P _ (Nat.mul_pos (by omega) (by omega)) hMP (hr _)

/-- Witness for C12: the built configuration, `N = M = P = 2048`. -/
theorem initial_value_range_witness :
    wrap32 ((2048 : Nat) * (2048 : Nat)) = ((2048 * 2048 : Nat) : Int) ∧
    wrap32 ((2048 : Nat) * (2048 : Nat)) = ((2048 * 2048 : Nat) : Int) ∧
    ∃ s1, initialize_matrices 2048 2048 2048 (fun n => 1103515245 * n + 12345)
        (allocate_matrix_buffers 2048 2048 2048 (fun _ _ _ => -1)) = .ok s1 ∧
      (∀ i j, i < 2048 → j < 2048 →
        1 ≤ (s1 .A).data i j ∧ (s1 .A).data i j ≤ ((2048 * 2048 : Nat) : Int)) ∧
      (∀ j k, j < 2048 → k < 2048 →
        1 ≤ (s1 .B).data j k ∧ (s1 .B).data j k ≤ ((2048 * 2048 : Nat) : Int)) :=
  initial_value_range 2048 2048 2048 _ _ (allocate_allocated _ _ _ _) (by decide) (by decide)
    (fun n => by positivity)

/-- C13: whatever the buffers held before, `initialize_matrices` (when its divisors are
usable, so that it returns) leaves `C1[i][k] == C2[i][k] == C3[i][k] == C4[i][k] == 0` for all
`i < N`, `k < P`; and `main` runs its kernels on the state that `initialize_matrices`
returned, so the buffers are zero before the first kernel loop. -/
theorem result_buffers_zeroed (N M P : Nat) (rand : Nat → Int) (hA : ModulusOk N M)
    (hB : ModulusOk M P) :
    (∀ s, Allocated N M P s → ∃ s0, initialize_matrices N M P rand s = .ok s0 ∧
      ∀ i k, i < N → k < P → (s0 .C1).data i k = 0 ∧ (s0 .C2).data i k = 0 ∧
        (s0 .C3).data i k = 0 ∧ (s0 .C4).data i k = 0) ∧
    ∀ T junk, ∃ s0,
      initialize_matrices N M P rand (allocate_matrix_buffers N M P junk) = .ok s0 ∧
      (∀ i k, i < N → k < P → (s0 .C1).data i k = 0 ∧ (s0 .C2).data i k = 0 ∧
        (s0 .C3).data i k = 0 ∧ (s0 .C4).data i k = 0) ∧
      main N M P T junk rand =
        andThen (kernels N M P T s0) (fun s4 =>
          andThen (atStage 5 (verify_matrix_multiplication N P s4)) (fun s5 =>
            atStage 6 (delete_matrix_buffers M P s5))) := by
  have hinit : ∀ s, Allocated N M P s → ∃ s0, initialize_matrices N M P rand s = .ok s0 ∧
      ∀ i k, i < N → k < P → (s0 .C1).data i k = 0 ∧ (s0 .C2).data i k = 0 ∧
        (s0 .C3).data i k = 0 ∧ (s0 .C4).data i k = 0 := by
    intro s h
    obtain ⟨s0, e0, _, _, _, _, hz⟩ := initialize_result N M P rand s h hA hB
    exact ⟨s0, e0, fun i k hi hk => ⟨hz .C1 (by simp) i k hi hk, hz .C2 (by simp) i k hi hk,
      hz .C3 (by simp) i k hi hk, hz .C4 (by simp) i k hi hk⟩⟩
  refine ⟨hinit, fun T junk => ?_⟩
  obtain ⟨s0, e0, hz⟩ := hinit _ (allocate_allocated N M P junk)
  refine ⟨s0, e0, hz, ?_⟩
  simp only [main, e0, atStage, andThen_ok]

/-- Witness for C13: `N = 2`, `M = 3`, `P = 2`. -/
theorem result_buffers_zeroed_witness :
    (∀ s, Allocated 2 3 2 s → ∃ s0, initialize_matrices 2 3 2 (fun n => n) s = .ok s0 ∧
      ∀ i k, i < 2 → k < 2 → (s0 .C1).data i k = 0 ∧ (s0 .C2).data i k = 0 ∧
        (s0 .C3).data i k = 0 ∧ (s0 .C4).data i k = 0) ∧
    ∀ T junk, ∃ s0,
      initialize_matrices 2 3 2 (fun n => n) (allocate_matrix_buffers 2 3 2 junk) = .ok s0 ∧
      (∀ i k, i < 2 → k < 2 → (s0 .C1).data i k = 0 ∧ (s0 .C2).data i k = 0 ∧
        (s0 .C3).data i k = 0 ∧ (s0 .C4).data i k = 0) ∧
      main 2 3 2 T junk (fun n => n) =
        andThen (kernels 2 3 2 T s0) (fun s4 =>
          andThen (atStage 5 (verify_matrix_multiplication 2 2 s4)) (fun s5 =>
            atStage 6 (delete_matrix_buffers 3 2 s5))) :=
  result_buffers_zeroed 2 3 2 _ (fun _ _ => by decide) (fun _ _ => by decide)

/-- C14: for every state and all dimensions, each of the four kernel loop nests, whenever it
returns, has left `A`, `B`, `Bt` and the three result buffers other than its own exactly as
they were (every buffer other than its target is unchanged). -/
theorem kernels_write_only_own_buffer (N M P T : Nat) (s s1 : State) :
    (naiveKernel N M P s = .ok s1 → ∀ b, b ≠ Buf.C1 → s1 b = s b) ∧
    (transposedKernel N M P s = .ok s1 → ∀ b, b ≠ Buf.C2 → s1 b = s b) ∧
    (tiledKernel N M P T s = .ok s1 → ∀ b, b ≠ Buf.C3 → s1 b = s b) ∧
    (flatTiledKernel N M T s = .ok s1 → ∀ b, b ≠ Buf.C4 → s1 b = s b) :=
  ⟨fun h => ((kernel_frames N M P T s s1).1 h).1, fun h => ((kernel_frames N M P T s s1).2.1 h).1,
    fun h => ((kernel_frames N M P T s s1).2.2.1 h).1,
    fun h => ((kernel_frames N M P T s s1).2.2.2 h).1⟩

/-- C15: for every square size `n` and tile size `T > 0` dividing `n`, if every element of `A`
is 0 or every element of `B` (and so of its transpose `Bt`) is 0, and `C1`..`C4` start zero,
the four kernels return and every element of `C1`, `C2`, `C3` and `C4` is 0. -/
theorem zero_input_zero_output (n T : Nat) (s : State) (hT : 0 < T) (hd : T ∣ n)
    (h : Allocated n n n s) (htr : Transposed n n s) (hz : ZeroResults n n s)
    (h0 : (∀ i j, i < n → j < n → (s .A).data i j = 0) ∨
      (∀ j k, j < n → k < n → (s .B).data j k = 0)) :
    ∃ s4, kernels n n n T s = .ok s4 ∧
      ∀ i k, i < n → k < n → (s4 .C1).data i k = 0 ∧ (s4 .C2).data i k = 0 ∧
        (s4 .C3).data i k = 0 ∧ (s4 .C4).data i k = 0 := by
  obtain ⟨s4, e, _, _, _, _, v⟩ := kernels_result n n T s hT hd hd h htr hz
  have hp : ∀ i k, i < n → k < n → matProd n (s .A).data (s .B).data i k = 0 := by
    intro i k hi hk
    rw [matProd_eq]
    rcases h0 with hA | hB
    · rw [dot_zero_left n _ _ i k (fun j hj => hA i j hi hj)]; rfl
    · rw [dot_zero_right n _ _ i k (fun j hj => hB j k hj hk)]; rfl
  refine ⟨s4, e, fun i k hi hk => ?_⟩
  rw [v .C1 (by simp) i k hi hk, v .C2 (by simp) i k hi hk, v .C3 (by simp) i k hi hk,
    v .C4 (by simp) i k hi hk]
  exact ⟨hp i k hi hk, hp i k hi hk, hp i k hi hk, hp i k hi hk⟩

/-- Witness for C15: `A` all zero, `n = 6`, `T = 3`. -/
theorem zero_input_zero_output_witness :
    ∃ s4, kernels 6 6 6 3 (inputState 6 6 6 (fun _ _ => 0) (fun j k => 9 * j + k + 1)) = .ok s4 ∧
      ∀ i k, i < 6 → k < 6 → (s4 .C1).data i k = 0 ∧ (s4 .C2).data i k = 0 ∧
        (s4 .C3).data i k = 0 ∧ (s4 .C4).data i k = 0 :=
  zero_input_zero_output 6 3 _ (by decide) (by decide) (inputState_allocated _ _ _ _ _)
    (inputState_transposed _ _ _ _ _) (inputState_zero _ _ _ _ _)
    (Or.inl (fun _ _ _ _ => rfl))

/-- C16: for every `n` and every `n x n` matrix `B` of `int`s, if `A` is the `n x n` identity
and `C1` starts zero, the naive kernel returns with `C1[i][k] == B[i][k]` for all `i, k < n`. -/
theorem left_identity (n : Nat) (s : State) (h : Allocated n n n s)
    (hz : ∀ i k, i < n → k < n → (s .C1).data i k = 0)
    (hI : ∀ i j, i < n → j < n → (s .A).data i j = if i = j then 1 else 0)
    (hB : ∀ j k, j < n → k < n → InRange ((s .B).data j k)) :
    ∃ s1, naiveKernel n n n s = .ok s1 ∧
      ∀ i k, i < n → k < n → (s1 .C1).data i k = (s .B).data i k := by
  obtain ⟨s1, e1, _, v1⟩ := naive_result n n n s h
  refine ⟨s1, e1, fun i k hi hk => ?_⟩
  rw [v1 i k hi hk (hz i k hi hk), matProd_eq,
    dot_identity n _ _ i k hi (fun j hj => hI i j hi hj)]
  exact wrap32_of_inRange (hB i k hi hk)

/-- Witness for C16: the `4 x 4` identity and `B[j][k] = 1000 * j - k`. -/
theorem left_identity_witness :
    ∃ s1, naiveKernel 4 4 4
        (inputState 4 4 4 (fun i j => if i = j then 1 else 0) (fun j k => 1000 * j - k)) = .ok s1 ∧
      ∀ i k, i < 4 → k < 4 → (s1 .C1).data i k =
        ((inputState 4 4 4 (fun i j => if i = j then 1 else 0) (fun j k => 1000 * j - k)) .B).data
          i k :=
  left_identity 4 _ (inputState_allocated _ _ _ _ _) (fun _ _ _ _ => rfl) (fun _ _ _ _ => rfl)
    (fun j k hj hk => by
      show InRange (1000 * (j : Int) - (k : Int))
      unfold InRange
      omega)

/-- C17: the kernels accumulate. For square `n`, `T > 0` dividing `n`, `Bt` the transpose of
`B` and any initial `int` content `C0` of the result buffers (not necessarily zero), each of
the four kernels returns and leaves `C[i][k] == C0[i][k] + (sum over j of A[i][j] * B[j][k])`
in wraparound arithmetic; the result is the product exactly when `C0[i][k]` is zero; and
running the kernel a second time on the same buffer gives `C0[i][k]` plus twice the
product, so twice the product from a zeroed buffer. -/
theorem kernels_accumulate (n T : Nat) (s : State) (hT : 0 < T) (hd : T ∣ n)
    (h : Allocated n n n s) (htr : Transposed n n s)
    (hr : ∀ c, c = Buf.C1 ∨ c = Buf.C2 ∨ c = Buf.C3 ∨ c = Buf.C4 →
      ∀ i k, i < n → k < n → InRange ((s c).data i k)) :
    AccumulatesProduct n .C1 (naiveKernel n n n) s ∧
    AccumulatesProduct n .C2 (transposedKernel n n n) s ∧
    AccumulatesProduct n .C3 (tiledKernel n n n T) s ∧
    AccumulatesProduct n .C4 (flatTiledKernel n n T) s := by
  obtain ⟨q, hq⟩ := hd
  have hq' : n = q * T := by rw [hq, Nat.mul_comm]
  have hrows : ∀ i k, i < n → k < n →
      dotRows n (s .A).data (s .Bt).data i k = dot n (s .A).data (s .B).data i k :=
    fun i k _ hk => dotRows_eq_dot n _ (s .B).data _ i k (fun j hj => htr j k hj hk)
  refine ⟨?_, ?_, ?_, ?_⟩
  · exact accumulates_of_adds n .C1 _ s _ (naive_adds n n n s h)
      (fun i k hi hk => by simp only [hi, hk, and_self, if_true]) (hr .C1 (by simp))
  · exact accumulates_of_adds n .C2 _ s _ (transposed_adds n n n s h)
      (fun i k hi hk => by simp only [hi, hk, and_self, if_true]; exact hrows i k hi hk)
      (hr .C2 (by simp))
  · exact accumulates_of_adds n .C3 _ s _ (tiled_adds n n T q q s hT hq' hq' h)
      (fun i k hi hk => by simp only [hi, hk, and_self, if_true]; exact hrows i k hi hk)
      (hr .C3 (by simp))
  · exact accumulates_of_adds n .C4 _ s _
      (flatTiled_adds n n n T q q s hT hq' hq' (Nat.le_refl n) h)
      (fun i k hi hk => by simp only [hi, hk, and_self, if_true]; exact hrows i k hi hk)
      (hr .C4 (by simp))

/-- Witness for C17: `n = 4`, `T = 2`, result buffers starting at `100 + i - k`. -/
theorem kernels_accumulate_witness :
    AccumulatesProduct 4 .C1 (naiveKernel 4 4 4) accumDemo ∧
    AccumulatesProduct 4 .C2 (transposedKernel 4 4 4) accumDemo ∧
    AccumulatesProduct 4 .C3 (tiledKernel 4 4 4 2) accumDemo ∧
    AccumulatesProduct 4 .C4 (flatTiledKernel 4 4 2) accumDemo :=
  kernels_accumulate 4 2 accumDemo (by decide) (by decide) (allocate_allocated _ _ _ _)
    (fun _ _ _ _ => rfl)
    (fun c hc i k _ _ => by
      rcases hc with rfl | rfl | rfl | rfl <;>
      · show InRange (100 + (i : Int) - (k : Int))
        unfold InRange
        omega)

/-- C18: for every `n` and `T > 0` dividing `n` (`N = M = P = n`), the sequence of index
triples `(i1, j1, k1)` at which the tiled loop nest executes its update contains every triple
of `[0,n) x [0,n) x [0,n)` exactly once and no other triple, and so does the sequence of the
flat tiled nest. -/
theorem tiles_partition_iteration_space (n T : Nat) (hT : 0 < T) (hd : T ∣ n) :
    (∃ l, tiledVisits n n n T = .ok l ∧ ExactlyOnce n n n l) ∧
    (∃ l, flatTiledVisits n n T = .ok l ∧ ExactlyOnce n n n l) :=
  ⟨tiledVisits_exactlyOnce n n n T hT hd hd hd, flatTiledVisits_exactlyOnce n n T hT hd hd⟩

/-- Witness for C18: `n = 8`, `T = 2`. -/
theorem tiles_partition_iteration_space_witness :
    (∃ l, tiledVisits 8 8 8 2 = .ok l ∧ ExactlyOnce 8 8 8 l) ∧
    (∃ l, flatTiledVisits 8 8 2 = .ok l ∧ ExactlyOnce 8 8 8 l) :=
  tiles_partition_iteration_space 8 2 (by decide) (by decide)

/-- C19: for square dimensions `N = M = P = n > 0` and `T > 0`, from every allocated state
the tiled and the flat tiled loop nests run without an out-of-bounds access (and return) if
and only if `T` divides `n`; when `T` does not divide `n` each of them stops with an access
outside `[0,n)` instead of covering part of the matrix. -/
theorem index_safety_iff_divisibility (n T : Nat) (s : State) (hn : 0 < n) (hT : 0 < T)
    (h : Allocated n n n s) :
    ((∃ s1, tiledKernel n n n T s = .ok s1) ↔ T ∣ n) ∧
    (tiledKernel n n n T s ≠ .error .outOfBounds ↔ T ∣ n) ∧
    ((∃ s1, flatTiledKernel n n T s = .ok s1) ↔ T ∣ n) ∧
    (flatTiledKernel n n T s ≠ .error .outOfBounds ↔ T ∣ n) := by
  have ok3 : T ∣ n → ∃ s1, tiledKernel n n n T s = .ok s1 := by
    rintro ⟨q, hq⟩
    have hq' : n = q * T := by rw [hq, Nat.mul_comm]
    obtain ⟨s1, e1, _⟩ := tiled_adds n n T q q s hT hq' hq' h s (SameBut.refl _ _)
    exact ⟨s1, e1⟩
  have ok4 : T ∣ n → ∃ s1, flatTiledKernel n n T s = .ok s1 := by
    rintro ⟨q, hq⟩
    have hq' : n = q * T := by rw [hq, Nat.mul_comm]
    obtain ⟨s1, e1, _⟩ :=
      flatTiled_adds n n n T q q s hT hq' hq' (Nat.le_refl n) h s (SameBut.refl _ _)
    exact ⟨s1, e1⟩
  have bad3 : ¬ T ∣ n → tiledKernel n n n T s = .error .outOfBounds :=
    fun hd => tiled_nondividing n T s hn hT hd h
  have bad4 : ¬ T ∣ n → flatTiledKernel n n T s = .error .outOfBounds :=
    fun hd => flatTiled_nondividing n T s hn hT hd h
  refine ⟨⟨fun ⟨s1, e1⟩ => ?_, ok3⟩, ⟨fun hne => ?_, fun hd => ?_⟩,
    ⟨fun ⟨s1, e1⟩ => ?_, ok4⟩, ⟨fun hne => ?_, fun hd => ?_⟩⟩
  · by_contra hd
    rw [bad3 hd] at e1
    exact Except.noConfusion e1
  · by_contra hd
    exact hne (bad3 hd)
  · obtain ⟨s1, e1⟩ := ok3 hd
    rw [e1]
    exact fun he => Except.noConfusion he
  · by_contra hd
    rw [bad4 hd] at e1
    exact Except.noConfusion e1
  · by_contra hd
    exact hne (bad4 hd)
  · obtain ⟨s1, e1⟩ := ok4 hd
    rw [e1]
    exact fun he => Except.noConfusion he

/-- Witness for C19: `n = 10`, `T = 4`. -/
theorem index_safety_iff_divisibility_witness :
    ((∃ s1, tiledKernel 10 10 10 4
        (inputState 10 10 10 (fun i j => i * j) (fun j k => j + k)) = .ok s1) ↔ 4 ∣ 10) ∧
    (tiledKernel 10 10 10 4 (inputState 10 10 10 (fun i j => i * j) (fun j k => j + k))
        ≠ .error .outOfBounds ↔ 4 ∣ 10) ∧
    ((∃ s1, flatTiledKernel 10 10 4
        (inputState 10 10 10 (fun i j => i * j) (fun j k => j + k)) = .ok s1) ↔ 4 ∣ 10) ∧
    (flatTiledKernel 10 10 4 (inputState 10 10 10 (fun i j => i * j) (fun j k => j + k))
        ≠ .error .outOfBounds ↔ 4 ∣ 10) :=
  index_safety_iff_divisibility 10 4 _ (by decide) (by decide) (inputState_allocated _ _ _ _ _)

end MatMul
